import Mathlib

/-!
Verification of the nested-data manipulation core of `tf_pwa/data.py`.

The data model: trees are arbitrary nestings of Python `dict`
(association lists with insertion order), `list`, `tuple`, over opaque
numeric-array leaves.  Leaves are modelled as two-dimensional arrays
(`List (List Int)`): the outer list is the batch axis (axis 0), the inner
lists are the rows (axis -1), which is enough structure to express batch
slicing, axis-0 and inner-axis concatenation.

Dictionary keys in Python may be strings, other hashable objects, or
integers; `Key` models exactly those three kinds, with `Key.pyStr`
playing the role of Python's `str(k)`.
-/

/-- A row of a leaf array (the sub-array off the batch axis). -/
abbrev Row := List Int

/-- A leaf value: a 2-D array, outer dimension = batch axis 0. -/
abbrev Arr := List Row

/-- Python dictionary keys as used by the repository: plain strings,
non-string hashable objects carrying a `str` form (e.g. particle objects),
and integers. -/
inductive Key where
  | str (s : String)
  | obj (id : Nat) (s : String)
  | int (n : Int)
deriving DecidableEq

/-- Python `str(k)` for a key. -/
def Key.pyStr : Key → String
  | .str s => s
  | .obj _ s => s
  | .int n => toString n

/-- The nested data structure of `data.py`: dict / list / tuple over
array leaves.  Dicts are association lists, keeping insertion order. -/
inductive Data where
  | leaf (a : Arr)
  | dict (es : List (Key × Data))
  | seq (xs : List Data)
  | tup (xs : List Data)

instance : Inhabited Data := ⟨.leaf []⟩

mutual

/-- Boolean equality on trees (used to obtain decidable equality, which
the automatic deriving cannot produce for this nested inductive). -/
def Data.beq : Data → Data → Bool
  | .leaf a, .leaf b => a == b
  | .dict es, .dict fs => Data.beqEntries es fs
  | .seq xs, .seq ys => Data.beqList xs ys
  | .tup xs, .tup ys => Data.beqList xs ys
  | _, _ => false

/-- Boolean equality on dict entry lists. -/
def Data.beqEntries : List (Key × Data) → List (Key × Data) → Bool
  | [], [] => true
  | (k, v) :: es, (k2, v2) :: fs =>
    k == k2 && Data.beq v v2 && Data.beqEntries es fs
  | _, _ => false

/-- Boolean equality on child lists. -/
def Data.beqList : List Data → List Data → Bool
  | [], [] => true
  | x :: xs, y :: ys => Data.beq x y && Data.beqList xs ys
  | _, _ => false

end

mutual

theorem Data.beq_iff : ∀ a b : Data, Data.beq a b = true ↔ a = b
  | .leaf a, b => by
    cases b <;> simp [Data.beq]
  | .dict es, b => by
    cases b <;> simp [Data.beq]
    exact Data.beqEntries_iff es _
  | .seq xs, b => by
    cases b <;> simp [Data.beq]
    exact Data.beqList_iff xs _
  | .tup xs, b => by
    cases b <;> simp [Data.beq]
    exact Data.beqList_iff xs _

theorem Data.beqEntries_iff : ∀ es fs : List (Key × Data),
    Data.beqEntries es fs = true ↔ es = fs
  | [], fs => by cases fs <;> simp [Data.beqEntries]
  | (k, v) :: es, fs => by
    cases fs with
    | nil => simp [Data.beqEntries]
    | cons kv fs =>
      obtain ⟨k2, v2⟩ := kv
      simp [Data.beqEntries, Data.beq_iff v v2, Data.beqEntries_iff es fs,
        and_assoc]

theorem Data.beqList_iff : ∀ xs ys : List Data,
    Data.beqList xs ys = true ↔ xs = ys
  | [], ys => by cases ys <;> simp [Data.beqList]
  | x :: xs, ys => by
    cases ys with
    | nil => simp [Data.beqList]
    | cons y ys =>
      simp [Data.beqList, Data.beq_iff x y, Data.beqList_iff xs ys]

end

instance : DecidableEq Data := fun a b =>
  decidable_of_iff (Data.beq a b = true) (Data.beq_iff a b)

/-- Python exception classes raised by the modelled code. -/
inductive Err where
  | assertError
  | keyError
  | indexError
  | valueError
  | leafError
deriving DecidableEq

/-- Decidable equality for `Except` results (not provided by core for
this combination; used so that witnesses can be checked by `decide`). -/
instance [DecidableEq ε] [DecidableEq α] : DecidableEq (Except ε α) := fun a b =>
  match a, b with
  | .ok x, .ok y =>
    if h : x = y then .isTrue (by simp [h]) else .isFalse (by simp [h])
  | .ok _, .error _ => .isFalse (fun hc => Except.noConfusion hc)
  | .error _, .ok _ => .isFalse (fun hc => Except.noConfusion hc)
  | .error e, .error e2 =>
    if h : e = e2 then .isTrue (by simp [h]) else .isFalse (by simp [h])

/-- Python dict lookup `d[k]` / `k in d` on an association list:
first entry with an equal key. -/
def lookupKey (es : List (Key × Data)) (k : Key) : Option Data :=
  (es.find? (fun kv => kv.1 == k)).map Prod.snd

/-- Check whether a tree node is a leaf. -/
def Data.isLeaf : Data → Bool
  | .leaf _ => true
  | _ => false

/-- View a node as a dict. -/
def asDictL : Data → Option (List (Key × Data))
  | .dict es => some es
  | _ => none

/-- View a node as a list. -/
def asSeqL : Data → Option (List Data)
  | .seq xs => some xs
  | _ => none

/-- View a node as a tuple. -/
def asTupL : Data → Option (List Data)
  | .tup xs => some xs
  | _ => none

/-- View a node as a leaf array. -/
def asLeaf : Data → Option Arr
  | .leaf a => some a
  | _ => none

/-- `_data_split(dat, batch_size, axis=0)` on the batch axis: the chunks
`dat[i:min(i+b, n)]` for `i in range(0, n, b)`.  (`b = 0` raises in
Python; the model returns `[]` there and every theorem assumes `1 ≤ b`.) -/
def chunk (l : List α) (b : Nat) : List (List α) :=
  match l with
  | [] => []
  | x :: xs =>
    if b = 0 then []
    else (x :: xs).take b :: chunk ((x :: xs).drop b) b
termination_by l.length
decreasing_by
  rename_i hb
  have h1 : 0 < b := Nat.pos_of_ne_zero hb
  simp only [List.drop, List.length_drop, List.length_cons]
  omega

/-- Length of the shortest list among `ls` (0 when `ls = []`), i.e. the
number of steps Python's `zip(*ls)` takes. -/
def minLen (ls : List (List α)) : Nat :=
  match ls with
  | [] => 0
  | l :: rest => rest.foldl (fun a r => min a r.length) l.length

/-- Python `list(zip(*ls))`: the list of "columns", truncated to the
shortest input (`zip()` with no arguments is empty). -/
def pyZip [Inhabited α] (ls : List (List α)) : List (List α) :=
  (List.range (minLen ls)).map (fun i => ls.map (fun l => l.getD i default))

/-- `data_split` (= `data_generator` with `_data_split`) on the batch
axis, with the produced generator fully materialised: a leaf yields its
batch slices; a dict/list/tuple zips its children's generators together
(Python `zip`: shortest input governs, `zip()` of no generators is
empty) and rebuilds a node of the same kind from each simultaneous
step. -/
def dataSplit (t : Data) (b : Nat) : List Data :=
  match t with
  | .leaf a => (chunk a b).map .leaf
  | .dict es =>
    (pyZip (es.attach.map (fun kv => dataSplit kv.1.2 b))).map
      (fun col => .dict ((es.map Prod.fst).zip col))
  | .seq xs => (pyZip (xs.attach.map (fun x => dataSplit x.1 b))).map .seq
  | .tup xs => (pyZip (xs.attach.map (fun x => dataSplit x.1 b))).map .tup
termination_by sizeOf t
decreasing_by
  · obtain ⟨⟨k, v⟩, hm⟩ := kv
    have := List.sizeOf_lt_of_mem hm
    simp only [Data.dict.sizeOf_spec, Prod.mk.sizeOf_spec] at this ⊢
    omega
  · have := List.sizeOf_lt_of_mem x.2
    simp only [Data.seq.sizeOf_spec]
    omega
  · have := List.sizeOf_lt_of_mem x.2
    simp only [Data.tup.sizeOf_spec]
    omega

/-- `data_map(data, fun)`: rebuild the same structure, applying the leaf
function at every leaf (the `args`/`kwargs` of the Python signature are
absorbed into the closure `f`). -/
def dataMap (f : Arr → Arr) (t : Data) : Data :=
  match t with
  | .leaf a => .leaf (f a)
  | .dict es => .dict (es.attach.map (fun kv => (kv.1.1, dataMap f kv.1.2)))
  | .seq xs => .seq (xs.attach.map (fun x => dataMap f x.1))
  | .tup xs => .tup (xs.attach.map (fun x => dataMap f x.1))
termination_by sizeOf t
decreasing_by
  · obtain ⟨⟨k, v⟩, hm⟩ := kv
    have := List.sizeOf_lt_of_mem hm
    simp only [Data.dict.sizeOf_spec, Prod.mk.sizeOf_spec] at this ⊢
    omega
  · have := List.sizeOf_lt_of_mem x.2
    simp only [Data.seq.sizeOf_spec]
    omega
  · have := List.sizeOf_lt_of_mem x.2
    simp only [Data.tup.sizeOf_spec]
    omega

/-- A Python list comprehension whose body may raise: evaluate `F` left
to right, stopping at the first exception. -/
def mapExcept (F : α → Except ε β) : List α → Except ε (List β)
  | [] => .ok []
  | a :: l =>
    match F a with
    | .error e => .error e
    | .ok b =>
      match mapExcept F l with
      | .error e => .error e
      | .ok bs => .ok (b :: bs)

/-- Map a partial view over a list, succeeding only if every element
matches (used for the `isinstance` checks over all merge arguments). -/
def mapOption (F : α → Option β) : List α → Option (List β)
  | [] => some []
  | a :: l =>
    match F a with
    | none => none
    | some b =>
      match mapOption F l with
      | none => none
      | some bs => some (b :: bs)

/-- Row-wise concatenation of 2-D arrays (concatenation along the inner
axis), used by `tf.concat(..., axis=-1)` / `axis=1` on rank-2 tensors. -/
def rowConcat (as : List Arr) : Arr :=
  match as with
  | [] => []
  | a :: rest => rest.foldl (fun acc b => acc.zipWith (fun r1 r2 => r1 ++ r2) b) a

/-- `tf.concat(arrays, axis)` on the 2-D leaf model: axis 0 concatenates
the batch dimensions; axis `-1`/`1` concatenates rows (requiring equal
batch extents); any other axis is out of range for rank 2. -/
def concatArr (ax : Int) (as : List Arr) : Except Err Arr :=
  if ax = 0 then .ok as.flatten
  else if ax = -1 ∨ ax = 1 then
    if as.all (fun a => a.length = (as.headD []).length) then .ok (rowConcat as)
    else .error .leafError
  else .error .leafError

/-- `data_merge(*data, axis=axis)` with the argument tuple split into its
head and tail.  Faithful to the source: the dict branch takes the key
intersection (iterated here in first-input order; Python iterates the
intersection set) and recurses, the list/tuple branches recurse over
`zip(*data)` (shortest input governs, no length check beyond the
`isinstance` asserts), and — exactly as in the source — every recursive
call drops `axis` and uses the default `0`; only a leaf at the top level
is concatenated along `ax`. -/
def dataMergeL (first : Data) (rest : List Data) (ax : Int) : Except Err Data :=
  match first with
  | .dict es =>
    match mapOption asDictL rest with
    | none => .error .assertError
    | some ds =>
      match mapExcept
          (fun kv =>
            (match mapOption (fun d => lookupKey d kv.1.1) ds with
            | none => .error .keyError
            | some vs =>
              (dataMergeL kv.1.2 vs 0).map (fun m => (kv.1.1, m)) :
              Except Err (Key × Data)))
          (es.filter (fun kv => ds.all (fun d => d.any (fun kv2 => kv2.1 == kv.1)))).attach with
      | .ok ms => .ok (.dict ms)
      | .error e => .error e
  | .seq xs =>
    match mapOption asSeqL rest with
    | none => .error .assertError
    | some ls =>
      match mapExcept
          (fun p => dataMergeL p.1.2 (ls.map (fun l => l.getD p.1.1 default)) 0)
          ((List.range (ls.foldl (fun a l => min a l.length) xs.length)).zip xs).attach with
      | .ok ys => .ok (.seq ys)
      | .error e => .error e
  | .tup xs =>
    match mapOption asTupL rest with
    | none => .error .assertError
    | some ls =>
      match mapExcept
          (fun p => dataMergeL p.1.2 (ls.map (fun l => l.getD p.1.1 default)) 0)
          ((List.range (ls.foldl (fun a l => min a l.length) xs.length)).zip xs).attach with
      | .ok ys => .ok (.tup ys)
      | .error e => .error e
  | .leaf a =>
    match mapOption asLeaf rest with
    | none => .error .leafError
    | some as => (concatArr ax (a :: as)).map .leaf
termination_by sizeOf first
decreasing_by
  · obtain ⟨⟨k, v⟩, hm⟩ := kv
    have hm2 := List.mem_of_mem_filter hm
    have := List.sizeOf_lt_of_mem hm2
    simp only [Data.dict.sizeOf_spec, Prod.mk.sizeOf_spec] at this ⊢
    omega
  · obtain ⟨⟨j, x⟩, hm⟩ := p
    have hx : x ∈ xs := (List.of_mem_zip hm).2
    have := List.sizeOf_lt_of_mem hx
    simp only [Data.seq.sizeOf_spec] at this ⊢
    omega
  · obtain ⟨⟨j, x⟩, hm⟩ := p
    have hx : x ∈ xs := (List.of_mem_zip hm).2
    have := List.sizeOf_lt_of_mem hx
    simp only [Data.tup.sizeOf_spec] at this ⊢
    omega

/-- `data_merge(*ts, axis=ax)` as called: Python's `data[0]` fails with
an `IndexError` on an empty argument tuple. -/
def dataMergeAll (ts : List Data) (ax : Int) : Except Err Data :=
  match ts with
  | [] => .error .indexError
  | t :: rest => dataMergeL t rest ax

/-- Python positional indexing `xs[n]` on a list/tuple, with negative
indices counting from the end. -/
def pyListGet (xs : List Data) (n : Int) : Except Err Data :=
  if 0 ≤ n ∧ n < xs.length then .ok (xs.getD n.toNat default)
  else if -(xs.length : Int) ≤ n ∧ n < 0 then
    .ok (xs.getD (xs.length - (-n).toNat) default)
  else .error .indexError

/-- Python subscript `data[n]` with an integer `n`, applied to any node
kind (this is what `data_index`'s helper does for integer keys, without
checking the node's kind first): dict → plain dict-key lookup raising
`KeyError` when absent; list/tuple → positional; leaf (ndarray) → drops
the batch axis and returns the indexed row, kept here as a one-row
leaf. -/
def pySubscript (d : Data) (n : Int) : Except Err Data :=
  match d with
  | .dict es =>
    match lookupKey es (.int n) with
    | some v => .ok v
    | none => .error .keyError
  | .seq xs => pyListGet xs n
  | .tup xs => pyListGet xs n
  | .leaf a =>
    if 0 ≤ n ∧ n < a.length then .ok (.leaf [a.getD n.toNat []])
    else if -(a.length : Int) ≤ n ∧ n < 0 then
      .ok (.leaf [a.getD (a.length - (-n).toNat) []])
    else .error .indexError

/-- The helper `idx(data, i)` inside `data_index`: integer keys are
subscripted directly; any other key requires (asserts) a dict and is
resolved by exact lookup first, then by comparing `str(k)` with `str(i)`
over the entries in order, else `ValueError("... is not found")`. -/
def idx (d : Data) (i : Key) : Except Err Data :=
  match i with
  | .int n => pySubscript d n
  | _ =>
    match d with
    | .dict es =>
      match lookupKey es i with
      | some v => .ok v
      | none =>
        match es.find? (fun kv => kv.1.pyStr == i.pyStr) with
        | some kv => .ok kv.2
        | none => .error .valueError
    | _ => .error .assertError

/-- `data_index(data, key)` when `key` is a list/tuple of keys: descend
one key per level (an empty path raises `IndexError` via `keys[0]`). -/
def dataIndexPath (d : Data) (keys : List Key) : Except Err Data :=
  match keys with
  | [] => .error .indexError
  | [k] => idx d k
  | k :: ks =>
    match idx d k with
    | .ok d2 => dataIndexPath d2 ks
    | .error e => .error e

/-- The default key formatter of `flatten_dict_data`:
`"parent/child"` built from the `str` forms of the two components. -/
def defaultFmt (i j : Key) : Key := .str (i.pyStr ++ "/" ++ j.pyStr)

/-- Python dict assignment `ret[k] = v` on the association-list model:
overwrite in place if the key is present, else append. -/
def dictInsert (es : List (Key × Data)) (k : Key) (v : Data) : List (Key × Data) :=
  if es.any (fun kv => kv.1 == k) then
    es.map (fun kv => if kv.1 == k then (kv.1, v) else kv)
  else es ++ [(k, v)]

/-- One step of `flatten_dict_data`'s outer loop: given the accumulated
`ret`, the current child key `i` and the recursively flattened child
`tmp`, either join keys through the formatter (container `tmp`) or keep
the original key (leaf `tmp`). -/
def flattenStep (f : Key → Key → Key) (ret : List (Key × Data)) (i : Key)
    (tmp : Data) : List (Key × Data) :=
  match tmp with
  | .dict inner => inner.foldl (fun r jw => dictInsert r (f i jw.1) jw.2) ret
  | .seq xs => xs.enum.foldl (fun r jw => dictInsert r (f i (.int jw.1)) jw.2) ret
  | .tup xs => xs.enum.foldl (fun r jw => dictInsert r (f i (.int jw.1)) jw.2) ret
  | .leaf a => dictInsert ret i (.leaf a)

/-- `flatten_dict_data(data, fun=f)`.  Faithful to the source: the
recursive call `flatten_dict_data(data_i)` does NOT pass `fun` along, so
every level below the top uses the default `"parent/child"` formatter. -/
def flattenDictData (f : Key → Key → Key) (t : Data) : Data :=
  match t with
  | .leaf a => .leaf a
  | .dict es =>
    .dict (es.attach.foldl
      (fun ret kv => flattenStep f ret kv.1.1 (flattenDictData defaultFmt kv.1.2)) [])
  | .seq xs =>
    .dict (xs.attach.enum.foldl
      (fun ret jx => flattenStep f ret (.int jx.1) (flattenDictData defaultFmt jx.2.1)) [])
  | .tup xs =>
    .dict (xs.attach.enum.foldl
      (fun ret jx => flattenStep f ret (.int jx.1) (flattenDictData defaultFmt jx.2.1)) [])
termination_by sizeOf t
decreasing_by
  · obtain ⟨⟨k, v⟩, hm⟩ := kv
    have := List.sizeOf_lt_of_mem hm
    simp only [Data.dict.sizeOf_spec, Prod.mk.sizeOf_spec] at this ⊢
    omega
  · obtain ⟨j, x, hm⟩ := jx
    have := List.sizeOf_lt_of_mem hm
    simp only [Data.seq.sizeOf_spec] at this ⊢
    omega
  · obtain ⟨j, x, hm⟩ := jx
    have := List.sizeOf_lt_of_mem hm
    simp only [Data.tup.sizeOf_spec] at this ⊢
    omega

/-- A path element: a dict key or a list/tuple position. -/
inductive PEl where
  | k (key : Key)
  | i (n : Nat)
deriving DecidableEq

/-- Descend a tree along a path (observation used to state per-path
correspondence between trees). -/
def getNode : Data → List PEl → Option Data
  | t, [] => some t
  | .dict es, .k key :: p =>
    match lookupKey es key with
    | some v => getNode v p
    | none => none
  | .seq xs, .i n :: p =>
    match xs.get? n with
    | some v => getNode v p
    | none => none
  | .tup xs, .i n :: p =>
    match xs.get? n with
    | some v => getNode v p
    | none => none
  | _, _ => none

/-- The leaves of a tree in depth-first order. -/
def leaves : Data → List Arr
  | .leaf a => [a]
  | .dict es => (es.attach.map (fun kv => leaves kv.1.2)).flatten
  | .seq xs => (xs.attach.map (fun x => leaves x.1)).flatten
  | .tup xs => (xs.attach.map (fun x => leaves x.1)).flatten
termination_by t => sizeOf t
decreasing_by
  · obtain ⟨⟨k, v⟩, hm⟩ := kv
    have := List.sizeOf_lt_of_mem hm
    simp only [Data.dict.sizeOf_spec, Prod.mk.sizeOf_spec] at this ⊢
    omega
  · have := List.sizeOf_lt_of_mem x.2
    simp only [Data.seq.sizeOf_spec]
    omega
  · have := List.sizeOf_lt_of_mem x.2
    simp only [Data.tup.sizeOf_spec]
    omega

/-- Structural isomorphism: same container kinds, same dict key lists,
same lengths and arities, leaves wherever leaves. -/
def sameStructure : Data → Data → Bool
  | .leaf _, .leaf _ => true
  | .dict es, .dict fs =>
    es.map Prod.fst == fs.map Prod.fst &&
    (es.zip fs).attach.all (fun pr => sameStructure pr.1.1.2 pr.1.2.2)
  | .seq xs, .seq ys =>
    xs.length == ys.length &&
    (xs.zip ys).attach.all (fun pr => sameStructure pr.1.1 pr.1.2)
  | .tup xs, .tup ys =>
    xs.length == ys.length &&
    (xs.zip ys).attach.all (fun pr => sameStructure pr.1.1 pr.1.2)
  | _, _ => false
termination_by t _ => sizeOf t
decreasing_by
  · obtain ⟨⟨⟨k, v⟩, w⟩, hm⟩ := pr
    have := List.sizeOf_lt_of_mem (List.of_mem_zip hm).1
    simp only [Data.dict.sizeOf_spec, Prod.mk.sizeOf_spec] at this ⊢
    omega
  · obtain ⟨⟨x, y⟩, hm⟩ := pr
    have := List.sizeOf_lt_of_mem (List.of_mem_zip hm).1
    simp only [Data.seq.sizeOf_spec] at this ⊢
    omega
  · obtain ⟨⟨x, y⟩, hm⟩ := pr
    have := List.sizeOf_lt_of_mem (List.of_mem_zip hm).1
    simp only [Data.tup.sizeOf_spec] at this ⊢
    omega

/-- Pairwise distinctness of a key list (the Python dict invariant). -/
def distinctKeysB : List Key → Bool
  | [] => true
  | k :: ks => !(ks.contains k) && distinctKeysB ks

/-- Well-formed tree: every container is nonempty and every dict has
pairwise distinct keys (real Python dicts cannot repeat keys; trees in
the repository always carry data under every branch). -/
def wfData : Data → Bool
  | .leaf _ => true
  | .dict es =>
    !es.isEmpty && distinctKeysB (es.map Prod.fst) &&
    es.attach.all (fun kv => wfData kv.1.2)
  | .seq xs => !xs.isEmpty && xs.attach.all (fun x => wfData x.1)
  | .tup xs => !xs.isEmpty && xs.attach.all (fun x => wfData x.1)
termination_by t => sizeOf t
decreasing_by
  · obtain ⟨⟨k, v⟩, hm⟩ := kv
    have := List.sizeOf_lt_of_mem hm
    simp only [Data.dict.sizeOf_spec, Prod.mk.sizeOf_spec] at this ⊢
    omega
  · have := List.sizeOf_lt_of_mem x.2
    simp only [Data.seq.sizeOf_spec]
    omega
  · have := List.sizeOf_lt_of_mem x.2
    simp only [Data.tup.sizeOf_spec]
    omega

/-- Every dict in the tree has pairwise distinct keys. -/
def wfKeys : Data → Bool
  | .leaf _ => true
  | .dict es =>
    distinctKeysB (es.map Prod.fst) && es.attach.all (fun kv => wfKeys kv.1.2)
  | .seq xs => xs.attach.all (fun x => wfKeys x.1)
  | .tup xs => xs.attach.all (fun x => wfKeys x.1)
termination_by t => sizeOf t
decreasing_by
  · obtain ⟨⟨k, v⟩, hm⟩ := kv
    have := List.sizeOf_lt_of_mem hm
    simp only [Data.dict.sizeOf_spec, Prod.mk.sizeOf_spec] at this ⊢
    omega
  · have := List.sizeOf_lt_of_mem x.2
    simp only [Data.seq.sizeOf_spec]
    omega
  · have := List.sizeOf_lt_of_mem x.2
    simp only [Data.tup.sizeOf_spec]
    omega

/-- Every leaf of the tree has batch-axis extent `N`. -/
def uniformExtent (N : Nat) : Data → Bool
  | .leaf a => a.length == N
  | .dict es => es.attach.all (fun kv => uniformExtent N kv.1.2)
  | .seq xs => xs.attach.all (fun x => uniformExtent N x.1)
  | .tup xs => xs.attach.all (fun x => uniformExtent N x.1)
termination_by t => sizeOf t
decreasing_by
  · obtain ⟨⟨k, v⟩, hm⟩ := kv
    have := List.sizeOf_lt_of_mem hm
    simp only [Data.dict.sizeOf_spec, Prod.mk.sizeOf_spec] at this ⊢
    omega
  · have := List.sizeOf_lt_of_mem x.2
    simp only [Data.seq.sizeOf_spec]
    omega
  · have := List.sizeOf_lt_of_mem x.2
    simp only [Data.tup.sizeOf_spec]
    omega

/-- Number of batch slices `_data_split` yields from extent `n` with
batch size `b`: the ceiling of `n / b`. -/
def numSlices (b n : Nat) : Nat := (n + b - 1) / b

/-- Minimum of a list of naturals (`none` for the empty list). -/
def minList : List Nat → Option Nat
  | [] => none
  | x :: xs => some (xs.foldl min x)

/-- All root-to-leaf paths of a tree with the leaf found at each path:
dict levels contribute their keys, list/tuple levels their positions as
integer keys (matching `enumerate`). -/
def leafPathsOf : Data → List (List Key × Data)
  | .leaf a => [([], .leaf a)]
  | .dict es =>
    (es.attach.map (fun kv =>
      (leafPathsOf kv.1.2).map (fun pa => (kv.1.1 :: pa.1, pa.2)))).flatten
  | .seq xs =>
    (xs.attach.enum.map (fun jx =>
      (leafPathsOf jx.2.1).map (fun pa => (Key.int jx.1 :: pa.1, pa.2)))).flatten
  | .tup xs =>
    (xs.attach.enum.map (fun jx =>
      (leafPathsOf jx.2.1).map (fun pa => (Key.int jx.1 :: pa.1, pa.2)))).flatten
termination_by t => sizeOf t
decreasing_by
  · obtain ⟨⟨k, v⟩, hm⟩ := kv
    have := List.sizeOf_lt_of_mem hm
    simp only [Data.dict.sizeOf_spec, Prod.mk.sizeOf_spec] at this ⊢
    omega
  · obtain ⟨j, x, hm⟩ := jx
    have := List.sizeOf_lt_of_mem hm
    simp only [Data.seq.sizeOf_spec] at this ⊢
    omega
  · obtain ⟨j, x, hm⟩ := jx
    have := List.sizeOf_lt_of_mem hm
    simp only [Data.tup.sizeOf_spec] at this ⊢
    omega

/-- The composite string key the default formatter produces for a path
of length at least two; a length-one path keeps its key as is. -/
def joinPath : List Key → Key
  | [] => .str ""
  | [k] => k
  | k :: p => .str (k.pyStr ++ "/" ++ (joinPath p).pyStr)

/-- The flat key a path receives when the top level uses formatter `f`
and all deeper levels use the default formatter (which is exactly what
the source does). -/
def flatKey (f : Key → Key → Key) : List Key → Key
  | [] => .str ""
  | [k] => k
  | k :: p => f k (joinPath p)

/-- No two paths of the tree collapse to the same flat key, at the top
level under formatter `f` and recursively (under the default formatter)
in every subtree.  Rules out Python-dict overwrites during flattening. -/
def flatOk (f : Key → Key → Key) : Data → Bool
  | .leaf _ => true
  | .dict es =>
    distinctKeysB ((leafPathsOf (.dict es)).map (fun pa => flatKey f pa.1)) &&
    es.attach.all (fun kv => flatOk defaultFmt kv.1.2)
  | .seq xs =>
    distinctKeysB ((leafPathsOf (.seq xs)).map (fun pa => flatKey f pa.1)) &&
    xs.attach.all (fun x => flatOk defaultFmt x.1)
  | .tup xs =>
    distinctKeysB ((leafPathsOf (.tup xs)).map (fun pa => flatKey f pa.1)) &&
    xs.attach.all (fun x => flatOk defaultFmt x.1)
termination_by t => sizeOf t
decreasing_by
  · obtain ⟨⟨k, v⟩, hm⟩ := kv
    have := List.sizeOf_lt_of_mem hm
    simp only [Data.dict.sizeOf_spec, Prod.mk.sizeOf_spec] at this ⊢
    omega
  · have := List.sizeOf_lt_of_mem x.2
    simp only [Data.seq.sizeOf_spec]
    omega
  · have := List.sizeOf_lt_of_mem x.2
    simp only [Data.tup.sizeOf_spec]
    omega

/-! ### Generic helper lemmas -/

/-- `attach` then projecting back out is the identity. -/
theorem attach_map_val_eq (l : List α) : l.attach.map (fun x => x.1) = l := by
  have h := List.attach_map_val l id
  rw [List.map_id] at h
  exact h

/-- `mapExcept` over a `map`. -/
theorem mapExcept_map_eq (l : List γ) (h : γ → α) (F : α → Except ε β) :
    mapExcept F (l.map h) = mapExcept (fun x => F (h x)) l := by
  induction l with
  | nil => rfl
  | cons a l ih => simp [mapExcept, ih]

/-- Eliminate `attach` under `mapExcept`. -/
theorem attach_mapExcept_eq (l : List α) (F : α → Except ε β) :
    mapExcept (fun x => F x.1) l.attach = mapExcept F l := by
  have h2 := mapExcept_map_eq l.attach (fun x => x.1) F
  rw [attach_map_val_eq] at h2
  exact h2.symm

/-- Eliminate `attach` under `foldl`. -/
theorem attach_foldl_eq (l : List α) (g : β → α → β) (init : β) :
    l.attach.foldl (fun r x => g r x.1) init = l.foldl g init := by
  have h2 := List.foldl_map (fun x : {x // x ∈ l} => x.1) g l.attach init
  rw [attach_map_val_eq] at h2
  exact h2.symm

/-- The enumeration of an attached list projects to the enumeration. -/
theorem attach_enum_map_val (l : List α) :
    l.attach.enum.map (Prod.map id Subtype.val) = l.enum := by
  rw [← List.enum_map]
  congr 1
  exact attach_map_val_eq l

/-- Eliminate `attach` under `enum`-`foldl`. -/
theorem attach_enum_foldl_eq (l : List α) (g : β → Nat × α → β) (init : β) :
    l.attach.enum.foldl (fun r jx => g r (jx.1, jx.2.1)) init =
      l.enum.foldl g init := by
  rw [← attach_enum_map_val l, List.foldl_map]
  rfl

/-- Eliminate `attach` under `enum`-`map`. -/
theorem attach_enum_map_eq (l : List α) (g : Nat × α → β) :
    l.attach.enum.map (fun jx => g (jx.1, jx.2.1)) = l.enum.map g := by
  rw [← attach_enum_map_val l, List.map_map]
  rfl

/-- Eliminate `attach` under `map` when the function uses the value only. -/
theorem attach_map_eq (l : List α) (g : α → β) :
    l.attach.map (fun x => g x.1) = l.map g :=
  List.attach_map_val l g

/-- Eliminate `attach` under `all`. -/
theorem attach_all_eq (l : List α) (g : α → Bool) :
    l.attach.all (fun x => g x.1) = l.all g := by
  simp [List.all_eq]

/-! ### Attach-free unfolding equations for the program functions -/

theorem dataSplit_leaf (a : Arr) (b : Nat) :
    dataSplit (.leaf a) b = (chunk a b).map .leaf := by
  rw [dataSplit]

theorem dataSplit_dict (es : List (Key × Data)) (b : Nat) :
    dataSplit (.dict es) b =
      (pyZip (es.map (fun kv => dataSplit kv.2 b))).map
        (fun col => .dict ((es.map Prod.fst).zip col)) := by
  rw [dataSplit]
  rw [attach_map_eq es (fun kv => dataSplit kv.2 b)]

theorem dataSplit_seq (xs : List Data) (b : Nat) :
    dataSplit (.seq xs) b =
      (pyZip (xs.map (fun x => dataSplit x b))).map .seq := by
  rw [dataSplit]
  rw [attach_map_eq xs (fun x => dataSplit x b)]

theorem dataSplit_tup (xs : List Data) (b : Nat) :
    dataSplit (.tup xs) b =
      (pyZip (xs.map (fun x => dataSplit x b))).map .tup := by
  rw [dataSplit]
  rw [attach_map_eq xs (fun x => dataSplit x b)]

theorem dataMap_leaf (f : Arr → Arr) (a : Arr) :
    dataMap f (.leaf a) = .leaf (f a) := by
  rw [dataMap]

theorem dataMap_dict (f : Arr → Arr) (es : List (Key × Data)) :
    dataMap f (.dict es) = .dict (es.map (fun kv => (kv.1, dataMap f kv.2))) := by
  rw [dataMap]
  rw [attach_map_eq es (fun kv => (kv.1, dataMap f kv.2))]

theorem dataMap_seq (f : Arr → Arr) (xs : List Data) :
    dataMap f (.seq xs) = .seq (xs.map (dataMap f)) := by
  rw [dataMap]
  rw [attach_map_eq xs (dataMap f)]

theorem dataMap_tup (f : Arr → Arr) (xs : List Data) :
    dataMap f (.tup xs) = .tup (xs.map (dataMap f)) := by
  rw [dataMap]
  rw [attach_map_eq xs (dataMap f)]

theorem dataMergeL_dict (es : List (Key × Data)) (rest : List Data) (ax : Int) :
    dataMergeL (.dict es) rest ax =
      match mapOption asDictL rest with
      | none => .error .assertError
      | some ds =>
        match mapExcept
            (fun kv =>
              (match mapOption (fun d => lookupKey d kv.1) ds with
              | none => .error .keyError
              | some vs =>
                (dataMergeL kv.2 vs 0).map (fun m => (kv.1, m)) :
                Except Err (Key × Data)))
            (es.filter (fun kv => ds.all (fun d => d.any (fun kv2 => kv2.1 == kv.1)))) with
        | .ok ms => .ok (.dict ms)
        | .error e => .error e := by
  rw [dataMergeL]
  cases mapOption asDictL rest with
  | none => rfl
  | some ds =>
    simp only
    have h := attach_mapExcept_eq
      (es.filter (fun kv => ds.all (fun d => d.any (fun kv2 => kv2.1 == kv.1))))
      (fun (kv : Key × Data) =>
        (match mapOption (fun d => lookupKey d kv.1) ds with
        | none => .error .keyError
        | some vs =>
          (dataMergeL kv.2 vs 0).map (fun m => (kv.1, m)) :
          Except Err (Key × Data)))
    rw [h]

theorem dataMergeL_seq (xs : List Data) (rest : List Data) (ax : Int) :
    dataMergeL (.seq xs) rest ax =
      match mapOption asSeqL rest with
      | none => .error .assertError
      | some ls =>
        match mapExcept
            (fun p => dataMergeL p.2 (ls.map (fun l => l.getD p.1 default)) 0)
            ((List.range (ls.foldl (fun a l => min a l.length) xs.length)).zip xs) with
        | .ok ys => .ok (.seq ys)
        | .error e => .error e := by
  rw [dataMergeL]
  cases mapOption asSeqL rest with
  | none => rfl
  | some ls =>
    simp only
    have h := attach_mapExcept_eq
      ((List.range (ls.foldl (fun a l => min a l.length) xs.length)).zip xs)
      (fun (p : Nat × Data) =>
        dataMergeL p.2 (ls.map (fun l => l.getD p.1 default)) 0)
    rw [h]

theorem dataMergeL_tup (xs : List Data) (rest : List Data) (ax : Int) :
    dataMergeL (.tup xs) rest ax =
      match mapOption asTupL rest with
      | none => .error .assertError
      | some ls =>
        match mapExcept
            (fun p => dataMergeL p.2 (ls.map (fun l => l.getD p.1 default)) 0)
            ((List.range (ls.foldl (fun a l => min a l.length) xs.length)).zip xs) with
        | .ok ys => .ok (.tup ys)
        | .error e => .error e := by
  rw [dataMergeL]
  cases mapOption asTupL rest with
  | none => rfl
  | some ls =>
    simp only
    have h := attach_mapExcept_eq
      ((List.range (ls.foldl (fun a l => min a l.length) xs.length)).zip xs)
      (fun (p : Nat × Data) =>
        dataMergeL p.2 (ls.map (fun l => l.getD p.1 default)) 0)
    rw [h]

theorem dataMergeL_leaf (a : Arr) (rest : List Data) (ax : Int) :
    dataMergeL (.leaf a) rest ax =
      match mapOption asLeaf rest with
      | none => .error .leafError
      | some as => (concatArr ax (a :: as)).map .leaf := by
  rw [dataMergeL]

theorem leaves_leaf (a : Arr) : leaves (.leaf a) = [a] := by
  rw [leaves]

theorem leaves_dict (es : List (Key × Data)) :
    leaves (.dict es) = (es.map (fun kv => leaves kv.2)).flatten := by
  rw [leaves]
  rw [attach_map_eq es (fun kv => leaves kv.2)]

theorem leaves_seq (xs : List Data) :
    leaves (.seq xs) = (xs.map leaves).flatten := by
  rw [leaves]
  rw [attach_map_eq xs leaves]

theorem leaves_tup (xs : List Data) :
    leaves (.tup xs) = (xs.map leaves).flatten := by
  rw [leaves]
  rw [attach_map_eq xs leaves]

theorem wfData_dict (es : List (Key × Data)) :
    wfData (.dict es) =
      (!es.isEmpty && distinctKeysB (es.map Prod.fst) &&
        es.all (fun kv => wfData kv.2)) := by
  rw [wfData]
  rw [attach_all_eq es (fun kv => wfData kv.2)]

theorem wfData_seq (xs : List Data) :
    wfData (.seq xs) = (!xs.isEmpty && xs.all wfData) := by
  rw [wfData]
  rw [attach_all_eq xs wfData]

theorem wfData_tup (xs : List Data) :
    wfData (.tup xs) = (!xs.isEmpty && xs.all wfData) := by
  rw [wfData]
  rw [attach_all_eq xs wfData]

theorem wfKeys_dict (es : List (Key × Data)) :
    wfKeys (.dict es) =
      (distinctKeysB (es.map Prod.fst) && es.all (fun kv => wfKeys kv.2)) := by
  rw [wfKeys]
  rw [attach_all_eq es (fun kv => wfKeys kv.2)]

theorem wfKeys_seq (xs : List Data) :
    wfKeys (.seq xs) = xs.all wfKeys := by
  rw [wfKeys]
  rw [attach_all_eq xs wfKeys]

theorem wfKeys_tup (xs : List Data) :
    wfKeys (.tup xs) = xs.all wfKeys := by
  rw [wfKeys]
  rw [attach_all_eq xs wfKeys]

theorem uniformExtent_dict (N : Nat) (es : List (Key × Data)) :
    uniformExtent N (.dict es) = es.all (fun kv => uniformExtent N kv.2) := by
  rw [uniformExtent]
  rw [attach_all_eq es (fun kv => uniformExtent N kv.2)]

theorem uniformExtent_seq (N : Nat) (xs : List Data) :
    uniformExtent N (.seq xs) = xs.all (uniformExtent N) := by
  rw [uniformExtent]
  rw [attach_all_eq xs (uniformExtent N)]

theorem uniformExtent_tup (N : Nat) (xs : List Data) :
    uniformExtent N (.tup xs) = xs.all (uniformExtent N) := by
  rw [uniformExtent]
  rw [attach_all_eq xs (uniformExtent N)]

theorem sameStructure_dict (es fs : List (Key × Data)) :
    sameStructure (.dict es) (.dict fs) =
      (es.map Prod.fst == fs.map Prod.fst &&
        (es.zip fs).all (fun pr => sameStructure pr.1.2 pr.2.2)) := by
  rw [sameStructure]
  rw [attach_all_eq (es.zip fs) (fun pr => sameStructure pr.1.2 pr.2.2)]

theorem sameStructure_seq (xs ys : List Data) :
    sameStructure (.seq xs) (.seq ys) =
      (xs.length == ys.length &&
        (xs.zip ys).all (fun pr => sameStructure pr.1 pr.2)) := by
  rw [sameStructure]
  rw [attach_all_eq (xs.zip ys) (fun pr => sameStructure pr.1 pr.2)]

theorem sameStructure_tup (xs ys : List Data) :
    sameStructure (.tup xs) (.tup ys) =
      (xs.length == ys.length &&
        (xs.zip ys).all (fun pr => sameStructure pr.1 pr.2)) := by
  rw [sameStructure]
  rw [attach_all_eq (xs.zip ys) (fun pr => sameStructure pr.1 pr.2)]

theorem leafPathsOf_dict (es : List (Key × Data)) :
    leafPathsOf (.dict es) =
      (es.map (fun kv =>
        (leafPathsOf kv.2).map (fun pa => (kv.1 :: pa.1, pa.2)))).flatten := by
  rw [leafPathsOf]
  rw [attach_map_eq es (fun kv => (leafPathsOf kv.2).map (fun pa => (kv.1 :: pa.1, pa.2)))]

theorem leafPathsOf_seq (xs : List Data) :
    leafPathsOf (.seq xs) =
      (xs.enum.map (fun jx =>
        (leafPathsOf jx.2).map (fun pa => (Key.int jx.1 :: pa.1, pa.2)))).flatten := by
  rw [leafPathsOf]
  have h := attach_enum_map_eq xs (fun (jx : Nat × Data) =>
    (leafPathsOf jx.2).map (fun pa => (Key.int jx.1 :: pa.1, pa.2)))
  rw [h]

theorem leafPathsOf_tup (xs : List Data) :
    leafPathsOf (.tup xs) =
      (xs.enum.map (fun jx =>
        (leafPathsOf jx.2).map (fun pa => (Key.int jx.1 :: pa.1, pa.2)))).flatten := by
  rw [leafPathsOf]
  have h := attach_enum_map_eq xs (fun (jx : Nat × Data) =>
    (leafPathsOf jx.2).map (fun pa => (Key.int jx.1 :: pa.1, pa.2)))
  rw [h]

theorem flattenDictData_leaf (f : Key → Key → Key) (a : Arr) :
    flattenDictData f (.leaf a) = .leaf a := by
  rw [flattenDictData]

theorem flattenDictData_dict (f : Key → Key → Key) (es : List (Key × Data)) :
    flattenDictData f (.dict es) =
      .dict (es.foldl
        (fun ret kv => flattenStep f ret kv.1 (flattenDictData defaultFmt kv.2)) []) := by
  rw [flattenDictData]
  have h := attach_foldl_eq es
    (fun ret (kv : Key × Data) => flattenStep f ret kv.1 (flattenDictData defaultFmt kv.2)) []
  rw [h]

theorem flattenDictData_seq (f : Key → Key → Key) (xs : List Data) :
    flattenDictData f (.seq xs) =
      .dict (xs.enum.foldl
        (fun ret jx => flattenStep f ret (.int jx.1) (flattenDictData defaultFmt jx.2)) []) := by
  rw [flattenDictData]
  have h := attach_enum_foldl_eq xs
    (fun ret (jx : Nat × Data) =>
      flattenStep f ret (.int jx.1) (flattenDictData defaultFmt jx.2)) []
  rw [h]

theorem flattenDictData_tup (f : Key → Key → Key) (xs : List Data) :
    flattenDictData f (.tup xs) =
      .dict (xs.enum.foldl
        (fun ret jx => flattenStep f ret (.int jx.1) (flattenDictData defaultFmt jx.2)) []) := by
  rw [flattenDictData]
  have h := attach_enum_foldl_eq xs
    (fun ret (jx : Nat × Data) =>
      flattenStep f ret (.int jx.1) (flattenDictData defaultFmt jx.2)) []
  rw [h]

theorem flatOk_dict (f : Key → Key → Key) (es : List (Key × Data)) :
    flatOk f (.dict es) =
      (distinctKeysB ((leafPathsOf (.dict es)).map (fun pa => flatKey f pa.1)) &&
        es.all (fun kv => flatOk defaultFmt kv.2)) := by
  rw [flatOk]
  rw [attach_all_eq es (fun kv => flatOk defaultFmt kv.2)]

theorem flatOk_seq (f : Key → Key → Key) (xs : List Data) :
    flatOk f (.seq xs) =
      (distinctKeysB ((leafPathsOf (.seq xs)).map (fun pa => flatKey f pa.1)) &&
        xs.all (flatOk defaultFmt)) := by
  rw [flatOk]
  rw [attach_all_eq xs (flatOk defaultFmt)]

theorem flatOk_tup (f : Key → Key → Key) (xs : List Data) :
    flatOk f (.tup xs) =
      (distinctKeysB ((leafPathsOf (.tup xs)).map (fun pa => flatKey f pa.1)) &&
        xs.all (flatOk defaultFmt)) := by
  rw [flatOk]
  rw [attach_all_eq xs (flatOk defaultFmt)]

/-- Structural induction over the nested tree type. -/
theorem Data.myInduction (P : Data → Prop)
    (hleaf : ∀ a, P (.leaf a))
    (hdict : ∀ es, (∀ k v, (k, v) ∈ es → P v) → P (.dict es))
    (hseq : ∀ xs, (∀ x ∈ xs, P x) → P (.seq xs))
    (htup : ∀ xs, (∀ x ∈ xs, P x) → P (.tup xs)) :
    ∀ t, P t
  | .leaf a => hleaf a
  | .dict es => hdict es (fun k v hv =>
      Data.myInduction P hleaf hdict hseq htup v)
  | .seq xs => hseq xs (fun x hx =>
      Data.myInduction P hleaf hdict hseq htup x)
  | .tup xs => htup xs (fun x hx =>
      Data.myInduction P hleaf hdict hseq htup x)
termination_by t => sizeOf t
decreasing_by
  · have := List.sizeOf_lt_of_mem hv
    simp only [Data.dict.sizeOf_spec, Prod.mk.sizeOf_spec] at this ⊢
    omega
  · have := List.sizeOf_lt_of_mem hx
    simp only [Data.seq.sizeOf_spec]
    omega
  · have := List.sizeOf_lt_of_mem hx
    simp only [Data.tup.sizeOf_spec]
    omega

/-! ### Lemmas about `mapExcept` / `mapOption` -/

theorem mapExcept_ok_of_forall (F : α → Except ε β) (g : α → β) :
    ∀ l : List α, (∀ x ∈ l, F x = .ok (g x)) → mapExcept F l = .ok (l.map g)
  | [], _ => rfl
  | a :: l, h => by
    simp only [mapExcept, h a (by simp)]
    rw [mapExcept_ok_of_forall F g l (fun x hx => h x (by simp [hx]))]
    simp

theorem mapExcept_ok_length (F : α → Except ε β) :
    ∀ l : List α, ∀ r, mapExcept F l = .ok r → r.length = l.length
  | [], r => by
    intro h
    simp only [mapExcept] at h
    cases h
    rfl
  | a :: l, r => by
    intro h
    simp only [mapExcept] at h
    cases hFa : F a with
    | error e => rw [hFa] at h; cases h
    | ok b =>
      rw [hFa] at h
      cases hrec : mapExcept F l with
      | error e => rw [hrec] at h; cases h
      | ok bs =>
        rw [hrec] at h
        cases h
        simp [mapExcept_ok_length F l bs hrec]

theorem mapExcept_ok_getElem (F : α → Except ε β) :
    ∀ l : List α, ∀ r, mapExcept F l = .ok r →
      ∀ i (h1 : i < l.length) (h2 : i < r.length), F l[i] = .ok r[i]
  | [], r => by
    intro h i h1 h2
    simp at h1
  | a :: l, r => by
    intro h i h1 h2
    simp only [mapExcept] at h
    cases hFa : F a with
    | error e => rw [hFa] at h; cases h
    | ok b =>
      rw [hFa] at h
      cases hrec : mapExcept F l with
      | error e => rw [hrec] at h; cases h
      | ok bs =>
        rw [hrec] at h
        cases h
        cases i with
        | zero => simpa using hFa
        | succ j =>
          simp only [List.getElem_cons_succ]
          exact mapExcept_ok_getElem F l bs hrec j (by simpa using h1) (by simpa using h2)

theorem mapOption_some_of_forall (F : α → Option β) (g : α → β) :
    ∀ l : List α, (∀ x ∈ l, F x = some (g x)) → mapOption F l = some (l.map g)
  | [], _ => rfl
  | a :: l, h => by
    simp only [mapOption, h a (by simp)]
    rw [mapOption_some_of_forall F g l (fun x hx => h x (by simp [hx]))]
    simp

theorem mapOption_some_length (F : α → Option β) :
    ∀ l : List α, ∀ r, mapOption F l = some r → r.length = l.length
  | [], r => by
    intro h
    simp only [mapOption] at h
    cases h
    rfl
  | a :: l, r => by
    intro h
    simp only [mapOption] at h
    cases hFa : F a with
    | none => rw [hFa] at h; cases h
    | some b =>
      rw [hFa] at h
      cases hrec : mapOption F l with
      | none => rw [hrec] at h; cases h
      | some bs =>
        rw [hrec] at h
        cases h
        simp [mapOption_some_length F l bs hrec]

theorem mapOption_some_getElem (F : α → Option β) :
    ∀ l : List α, ∀ r, mapOption F l = some r →
      ∀ i (h1 : i < l.length) (h2 : i < r.length), F l[i] = some r[i]
  | [], r => by
    intro h i h1 h2
    simp at h1
  | a :: l, r => by
    intro h i h1 h2
    simp only [mapOption] at h
    cases hFa : F a with
    | none => rw [hFa] at h; cases h
    | some b =>
      rw [hFa] at h
      cases hrec : mapOption F l with
      | none => rw [hrec] at h; cases h
      | some bs =>
        rw [hrec] at h
        cases h
        cases i with
        | zero => simpa using hFa
        | succ j =>
          simp only [List.getElem_cons_succ]
          exact mapOption_some_getElem F l bs hrec j (by simpa using h1) (by simpa using h2)

/-- Invert `mapOption` through a constructor section. -/
theorem mapOption_inv_map (F : α → Option β) (G : β → α)
    (hFG : ∀ a b, F a = some b → a = G b) :
    ∀ l : List α, ∀ r, mapOption F l = some r → l = r.map G
  | [], r => by
    intro h
    simp only [mapOption] at h
    cases h
    rfl
  | a :: l, r => by
    intro h
    simp only [mapOption] at h
    cases hFa : F a with
    | none => rw [hFa] at h; cases h
    | some b =>
      rw [hFa] at h
      cases hrec : mapOption F l with
      | none => rw [hrec] at h; cases h
      | some bs =>
        rw [hrec] at h
        cases h
        simp only [List.map_cons]
        rw [← hFG a b hFa, ← mapOption_inv_map F G hFG l bs hrec]

/-- `mapOption` along a section succeeds. -/
theorem mapOption_map_section (F : α → Option β) (G : β → α)
    (h : ∀ b, F (G b) = some b) :
    ∀ l : List β, mapOption F (l.map G) = some l
  | [] => rfl
  | b :: l => by
    simp only [List.map_cons, mapOption, h b]
    rw [mapOption_map_section F G h l]

theorem asDictL_eq_some {r : Data} {d : List (Key × Data)} :
    asDictL r = some d ↔ r = .dict d := by
  cases r <;> simp [asDictL]

theorem asSeqL_eq_some {r : Data} {xs : List Data} :
    asSeqL r = some xs ↔ r = .seq xs := by
  cases r <;> simp [asSeqL]

theorem asTupL_eq_some {r : Data} {xs : List Data} :
    asTupL r = some xs ↔ r = .tup xs := by
  cases r <;> simp [asTupL]

theorem asLeaf_eq_some {r : Data} {a : Arr} :
    asLeaf r = some a ↔ r = .leaf a := by
  cases r <;> simp [asLeaf]

/-! ### Lemmas about `minLen`, `pyZip`, `minList` -/

theorem foldl_min_le_init (l : List Nat) (a : Nat) : l.foldl min a ≤ a := by
  induction l generalizing a with
  | nil => simp
  | cons x l ih => exact le_trans (ih (min a x)) (min_le_left a x)

theorem foldl_min_le_mem (l : List Nat) (a : Nat) (x : Nat) (h : x ∈ l) :
    l.foldl min a ≤ x := by
  induction l generalizing a with
  | nil => simp at h
  | cons y l ih =>
    rcases List.mem_cons.mp h with h | h
    · subst h
      exact le_trans (foldl_min_le_init l (min a x)) (min_le_right a x)
    · exact ih (min a y) h

theorem foldl_min_mem_or (l : List Nat) (a : Nat) :
    l.foldl min a = a ∨ l.foldl min a ∈ l := by
  induction l generalizing a with
  | nil => simp
  | cons x l ih =>
    rcases ih (min a x) with h | h
    · rcases Nat.le_total a x with hax | hax
      · left
        rw [List.foldl_cons, h, min_eq_left hax]
      · right
        rw [List.foldl_cons, h, min_eq_right hax]
        simp
    · right
      simp [List.foldl_cons, h]

theorem minLen_eq_foldl (l0 : List α) (rest : List (List α)) :
    minLen (l0 :: rest) = (rest.map List.length).foldl min l0.length := by
  simp [minLen, List.foldl_map]

theorem minLen_le (ls : List (List α)) (l : List α) (h : l ∈ ls) :
    minLen ls ≤ l.length := by
  cases ls with
  | nil => simp at h
  | cons l0 rest =>
    rw [minLen_eq_foldl]
    rcases List.mem_cons.mp h with h | h
    · subst h
      exact foldl_min_le_init _ _
    · exact foldl_min_le_mem _ _ _ (List.mem_map_of_mem List.length h)

theorem minLen_mem (ls : List (List α)) (hne : ls ≠ []) :
    minLen ls ∈ ls.map List.length := by
  cases ls with
  | nil => exact absurd rfl hne
  | cons l0 rest =>
    rw [minLen_eq_foldl]
    rcases foldl_min_mem_or (rest.map List.length) l0.length with h | h
    · simp [h]
    · simp only [List.map_cons]
      exact List.mem_cons_of_mem _ h

theorem minLen_const (ls : List (List α)) (m : Nat) (hne : ls ≠ [])
    (hall : ∀ l ∈ ls, l.length = m) : minLen ls = m := by
  have h1 := minLen_mem ls hne
  rcases List.mem_map.mp h1 with ⟨l, hl, hlen⟩
  rw [← hlen, hall l hl]

theorem pyZip_length [Inhabited α] (ls : List (List α)) :
    (pyZip ls).length = minLen ls := by
  simp [pyZip]

theorem pyZip_getElem [Inhabited α] (ls : List (List α)) (j : Nat)
    (h : j < (pyZip ls).length) :
    (pyZip ls)[j] = ls.map (fun l => l.getD j default) := by
  simp [pyZip]

theorem minList_spec (l : List Nat) (m : Nat) :
    minList l = some m ↔ m ∈ l ∧ ∀ x ∈ l, m ≤ x := by
  cases l with
  | nil => simp [minList]
  | cons a l =>
    simp only [minList, Option.some_inj]
    constructor
    · intro h
      subst h
      constructor
      · rcases foldl_min_mem_or l a with h | h
        · simp [h]
        · exact List.mem_cons_of_mem _ h
      · intro x hx
        rcases List.mem_cons.mp hx with hx | hx
        · rw [hx]
          exact foldl_min_le_init l a
        · exact foldl_min_le_mem l a x hx
    · intro ⟨hmem, hlb⟩
      have h1 : l.foldl min a ≤ m := by
        rcases List.mem_cons.mp hmem with hm | hm
        · subst hm; exact foldl_min_le_init l m
        · exact foldl_min_le_mem l a m hm
      have h2 : m ≤ l.foldl min a := by
        rcases foldl_min_mem_or l a with h | h
        · rw [h]; exact hlb a (by simp)
        · exact hlb _ (List.mem_cons_of_mem _ h)
      omega

/-! ### Lemmas about `chunk` -/

theorem chunk_nil (b : Nat) : chunk ([] : List α) b = [] := by
  rw [chunk]

theorem chunk_cons (x : α) (xs : List α) (b : Nat) (hb : b ≠ 0) :
    chunk (x :: xs) b = (x :: xs).take b :: chunk ((x :: xs).drop b) b := by
  rw [chunk]
  simp [hb]

theorem chunk_eq_nil_iff (b : Nat) (hb : 1 ≤ b) (l : List α) :
    chunk l b = [] ↔ l = [] := by
  cases l with
  | nil => simp [chunk_nil]
  | cons x xs => simp [chunk_cons x xs b (by omega)]

theorem chunk_flatten (b : Nat) (hb : 1 ≤ b) :
    ∀ l : List α, (chunk l b).flatten = l
  | [] => by rw [chunk_nil]; rfl
  | x :: xs => by
    rw [chunk_cons x xs b (by omega)]
    simp only [List.flatten_cons]
    rw [chunk_flatten b hb ((x :: xs).drop b)]
    exact List.take_append_drop b (x :: xs)
termination_by l => l.length
decreasing_by
  simp only [List.length_drop, List.length_cons]
  omega

theorem numSlices_zero (b : Nat) (hb : 1 ≤ b) : numSlices b 0 = 0 := by
  unfold numSlices
  exact Nat.div_eq_of_lt (by omega)

theorem numSlices_succ (b n : Nat) (hb : 1 ≤ b) (hn : 1 ≤ n) :
    numSlices b n = 1 + numSlices b (n - b) := by
  unfold numSlices
  rcases Nat.le_total n b with h | h
  · have h0 : n - b = 0 := by omega
    rw [h0]
    have h2 : (0 + b - 1) / b = 0 := Nat.div_eq_of_lt (by omega)
    rw [h2]
    have h1 : n + b - 1 = (n - 1) + 1 * b := by omega
    rw [h1, Nat.add_mul_div_right _ _ (by omega : 0 < b)]
    have h3 : (n - 1) / b = 0 := Nat.div_eq_of_lt (by omega)
    omega
  · have h1 : n + b - 1 = (n - b + b - 1) + b := by omega
    rw [h1, Nat.add_div_right _ (by omega : 0 < b)]
    omega

theorem chunk_length (b : Nat) (hb : 1 ≤ b) :
    ∀ l : List α, (chunk l b).length = numSlices b l.length
  | [] => by
    rw [chunk_nil]
    simp [numSlices_zero b hb]
  | x :: xs => by
    rw [chunk_cons x xs b (by omega)]
    simp only [List.length_cons]
    rw [chunk_length b hb ((x :: xs).drop b)]
    rw [numSlices_succ b (xs.length + 1) hb (by omega)]
    simp only [List.length_drop, List.length_cons]
    omega
termination_by l => l.length
decreasing_by
  simp only [List.length_drop, List.length_cons]
  omega

theorem chunk_sizes (b : Nat) (hb : 1 ≤ b) :
    ∀ l : List α, (∀ c ∈ (chunk l b).dropLast, c.length = b) ∧
      (∀ c, (chunk l b).getLast? = some c → 0 < c.length ∧ c.length ≤ b)
  | [] => by
    rw [chunk_nil]
    simp
  | x :: xs => by
    rw [chunk_cons x xs b (by omega)]
    have ih := chunk_sizes b hb ((x :: xs).drop b)
    cases hc : chunk ((x :: xs).drop b) b with
    | nil =>
      have hd : (x :: xs).drop b = [] := (chunk_eq_nil_iff b hb _).mp hc
      have hlen : (x :: xs).length ≤ b := by
        have := List.drop_eq_nil_iff.mp hd
        omega
      constructor
      · intro c hcmem
        simp at hcmem
      · intro c hcl
        simp only [List.getLast?_singleton, Option.some_inj] at hcl
        subst hcl
        simp only [List.length_take, List.length_cons]
        omega
    | cons c0 cs =>
      rw [hc] at ih
      have hd : (x :: xs).drop b ≠ [] := by
        intro hnil
        rw [(chunk_eq_nil_iff b hb _).mpr hnil] at hc
        cases hc
      have hlen : b < (x :: xs).length := by
        rcases Nat.lt_or_ge b (x :: xs).length with h | h
        · exact h
        · exact absurd (List.drop_eq_nil_iff.mpr h) hd
      constructor
      · intro c hcmem
        rw [List.dropLast_cons_of_ne_nil (by simp)] at hcmem
        rcases List.mem_cons.mp hcmem with h | h
        · subst h
          simp only [List.length_take, List.length_cons]
          simp only [List.length_cons] at hlen
          omega
        · exact ih.1 c h
      · intro c hcl
        rw [List.getLast?_cons_cons] at hcl
        exact ih.2 c hcl
termination_by l => l.length
decreasing_by
  simp only [List.length_drop, List.length_cons]
  omega

/-! ### Lemmas about keys and lookup -/

theorem distinctKeysB_iff (ks : List Key) : distinctKeysB ks = true ↔ ks.Nodup := by
  induction ks with
  | nil => simp [distinctKeysB]
  | cons k ks ih =>
    simp only [distinctKeysB, Bool.and_eq_true, Bool.not_eq_true', List.nodup_cons, ih]
    have hc : ks.contains k = List.elem k ks := rfl
    rw [hc]
    constructor
    · intro ⟨h1, h2⟩
      refine ⟨fun hmem => ?_, h2⟩
      have hmem2 : List.elem k ks = true := List.elem_iff.mpr hmem
      rw [hmem2] at h1
      cases h1
    · intro ⟨h1, h2⟩
      refine ⟨?_, h2⟩
      rw [← Bool.not_eq_true, List.elem_iff]
      exact h1

theorem lookupKey_eq_of_mem_nodup :
    ∀ {es : List (Key × Data)} {k : Key} {v : Data},
      (k, v) ∈ es → (es.map Prod.fst).Nodup → lookupKey es k = some v := by
  intro es
  induction es with
  | nil => intro k v hmem _; simp at hmem
  | cons kv es ih =>
    intro k v hmem hnd
    obtain ⟨k2, v2⟩ := kv
    rcases List.mem_cons.mp hmem with h | h
    · cases h
      simp [lookupKey, List.find?_cons_of_pos]
    · have hne : k2 ≠ k := by
        intro hq
        subst hq
        have h1 : k2 ∈ es.map Prod.fst := List.mem_map.mpr ⟨(k2, v), h, rfl⟩
        simp only [List.map_cons, List.nodup_cons] at hnd
        exact hnd.1 h1
      simp only [lookupKey, List.find?_cons]
      have hbeq : ((k2, v2).1 == k) = false := by
        simp [hne]
      rw [hbeq]
      have hnd2 : (es.map Prod.fst).Nodup := by
        simp only [List.map_cons, List.nodup_cons] at hnd
        exact hnd.2
      exact ih h hnd2

theorem lookupKey_eq_none_iff (es : List (Key × Data)) (k : Key) :
    lookupKey es k = none ↔ k ∉ es.map Prod.fst := by
  simp only [lookupKey, Option.map_eq_none', List.find?_eq_none, List.mem_map, beq_iff_eq]
  constructor
  · intro h hmem
    rcases hmem with ⟨kv, hkv, hfst⟩
    exact h kv hkv hfst
  · intro h kv hkv hq
    exact h ⟨kv, hkv, hq⟩

theorem lookupKey_zip_getElem :
    ∀ (ks : List Key) (vs : List Data) (i : Nat), ks.Nodup →
      ∀ (h1 : i < ks.length) (h2 : i < vs.length),
        lookupKey (ks.zip vs) ks[i] = some vs[i] := by
  intro ks
  induction ks with
  | nil => intro vs i _ h1; simp at h1
  | cons k ks ih =>
    intro vs i hnd h1 h2
    cases vs with
    | nil => simp at h2
    | cons v vs =>
      cases i with
      | zero => simp [lookupKey, List.zip_cons_cons, List.find?_cons_of_pos]
      | succ j =>
        have hj1 : j < ks.length := by simpa using h1
        have hj2 : j < vs.length := by simpa using h2
        simp only [List.zip_cons_cons, List.getElem_cons_succ]
        have hne : (k == ks[j]) = false := by
          have hmem : ks[j] ∈ ks := List.getElem_mem hj1
          have hk : k ∉ ks := (List.nodup_cons.mp hnd).1
          simp only [beq_eq_false_iff_ne, ne_eq]
          intro hq
          rw [hq] at hk
          exact hk hmem
        simp only [lookupKey, List.find?_cons, hne]
        exact ih vs j (List.nodup_cons.mp hnd).2 hj1 hj2

theorem any_fst_beq_iff (d : List (Key × Data)) (k : Key) :
    (d.any (fun kv2 => kv2.1 == k)) = true ↔ k ∈ d.map Prod.fst := by
  simp only [List.any_eq_true, List.mem_map, beq_iff_eq]

/-! ### Claim C10 -/

/-- C10: for an integer key, the `data_index` helper subscripts the node
directly without checking its kind; on a dict node the integer is looked
up as a dictionary key (exact match only), and when that key is absent
the call fails with a raw `KeyError` — it never reaches the string-form
fuzzy fallback or the `ValueError` of the non-integer branch, even when
some key's string form equals the decimal form of the integer. -/
theorem data_index_int_key_on_dict (es : List (Key × Data)) (n : Int)
    (habs : lookupKey es (.int n) = none)
    (hfuzzy : ∃ kv ∈ es, kv.1.pyStr = toString n) :
    idx (.dict es) (.int n) = .error .keyError := by
  simp [idx, pySubscript, habs]

/-- Witness for C10: a dict whose only key is an object with string form
`"3"`; subscripting with the integer `3` raises `KeyError` even though
the fuzzy fallback would have matched that key. -/
theorem data_index_int_key_on_dict_witness :
    (lookupKey [(Key.obj 7 "3", Data.leaf [[1]])] (.int 3) = none) ∧
    (∃ kv ∈ [(Key.obj 7 "3", Data.leaf [[1]])], kv.1.pyStr = toString (3 : Int)) ∧
    idx (.dict [(Key.obj 7 "3", Data.leaf [[1]])]) (.int 3) = .error .keyError :=
  ⟨by decide, ⟨(Key.obj 7 "3", Data.leaf [[1]]), by decide, by decide⟩,
    data_index_int_key_on_dict _ 3 (by decide)
      ⟨(Key.obj 7 "3", Data.leaf [[1]]), by decide, by decide⟩⟩

/-! ### Claim C8 -/

/-- The entries scan of the fuzzy fallback finds exactly the unique
string-form match. -/
theorem find?_str_eq :
    ∀ (es : List (Key × Data)) (o : Key) (v : Data) (s : String),
      (es.map Prod.fst).Nodup → (o, v) ∈ es → o.pyStr = s →
      (∀ kv ∈ es, kv.1.pyStr = s → kv.1 = o) →
      es.find? (fun kv => kv.1.pyStr == s) = some (o, v) := by
  intro es
  induction es with
  | nil => intro o v s _ hmem; simp at hmem
  | cons kv0 es ih =>
    intro o v s hnd hmem hs huniq
    obtain ⟨k0, v0⟩ := kv0
    rcases List.mem_cons.mp hmem with h | h
    · cases h
      exact List.find?_cons_of_pos _ (by simpa using hs)
    · have hk0 : k0 ≠ o := by
        intro hq
        subst hq
        have h1 : k0 ∈ es.map Prod.fst := List.mem_map.mpr ⟨(k0, v), h, rfl⟩
        simp only [List.map_cons, List.nodup_cons] at hnd
        exact hnd.1 h1
      have hp0 : ((k0, v0).1.pyStr == s) = false := by
        simp only [beq_eq_false_iff_ne, ne_eq]
        intro hq
        exact hk0 (huniq (k0, v0) (by simp) hq)
      rw [List.find?_cons, hp0]
      exact ih o v s
        (by simpa using (List.nodup_cons.mp (by simpa using hnd)).2) h hs
        (fun kv hkv hq => huniq kv (List.mem_cons_of_mem _ hkv) hq)

/-- C8: on a dict node, a non-integer key resolves by exact match first
and then by comparing string forms against the entries in order (first
match wins), failing with `ValueError` when nothing matches; hence for a
mapping whose keys are non-string objects, a key that is the unique one
with string form `s` is reached equally by `data_index(tree, s)` and by
`data_index(tree, <the object>)`. -/
theorem data_index_fuzzy_fallback (es : List (Key × Data)) (o : Key) (v : Data)
    (s : String)
    (hobj : ∀ kv ∈ es, ∃ i st, kv.1 = Key.obj i st)
    (hnd : (es.map Prod.fst).Nodup)
    (hmem : (o, v) ∈ es)
    (hs : o.pyStr = s)
    (huniq : ∀ kv ∈ es, kv.1.pyStr = s → kv.1 = o) :
    idx (.dict es) (.str s) = .ok v ∧ idx (.dict es) o = .ok v ∧
      (∀ s2 : String, (∀ kv ∈ es, kv.1.pyStr ≠ s2) →
        idx (.dict es) (.str s2) = .error .valueError) := by
  obtain ⟨oi, ost, ho⟩ := hobj (o, v) hmem
  replace ho : o = Key.obj oi ost := ho
  have hstr_absent : ∀ s3 : String, lookupKey es (.str s3) = none := by
    intro s3
    rw [lookupKey_eq_none_iff]
    intro hmem3
    rcases List.mem_map.mp hmem3 with ⟨kv, hkv, hfst⟩
    rcases hobj kv hkv with ⟨i2, st2, hk2⟩
    rw [hk2] at hfst
    cases hfst
  refine ⟨?_, ?_, ?_⟩
  · simp only [idx, hstr_absent]
    simp only [show (Key.str s).pyStr = s from rfl]
    rw [find?_str_eq es o v s hnd hmem hs huniq]
  · subst ho
    simp only [idx, lookupKey_eq_of_mem_nodup hmem hnd]
  · intro s2 hnone
    have hfind : es.find? (fun kv => kv.1.pyStr == s2) = none := by
      rw [List.find?_eq_none]
      intro kv hkv
      simp only [beq_eq_false_iff_ne, ne_eq, Bool.not_eq_true]
      simpa using hnone kv hkv
    simp only [idx, hstr_absent]
    simp only [show (Key.str s2).pyStr = s2 from rfl]
    rw [hfind]

/-- Witness for C8: a two-entry dict keyed by objects with string forms
`"X"` and `"Y"`; indexing by the string `"X"` and by the object itself
both return the first leaf, and an unmatched string raises
`ValueError`. -/
theorem data_index_fuzzy_fallback_witness :
    idx (.dict [(Key.obj 0 "X", Data.leaf [[1]]), (Key.obj 1 "Y", Data.leaf [[2]])])
        (.str "X") = .ok (Data.leaf [[1]]) ∧
    idx (.dict [(Key.obj 0 "X", Data.leaf [[1]]), (Key.obj 1 "Y", Data.leaf [[2]])])
        (Key.obj 0 "X") = .ok (Data.leaf [[1]]) ∧
    (∀ s2 : String,
      (∀ kv ∈ [(Key.obj 0 "X", Data.leaf [[1]]), (Key.obj 1 "Y", Data.leaf [[2]])],
        kv.1.pyStr ≠ s2) →
      idx (.dict [(Key.obj 0 "X", Data.leaf [[1]]), (Key.obj 1 "Y", Data.leaf [[2]])])
        (.str s2) = .error .valueError) :=
  data_index_fuzzy_fallback
    [(Key.obj 0 "X", Data.leaf [[1]]), (Key.obj 1 "Y", Data.leaf [[2]])]
    (Key.obj 0 "X") (Data.leaf [[1]]) "X"
    (by intro kv hkv
        rcases List.mem_cons.mp hkv with h | h
        · exact ⟨0, "X", by rw [h]⟩
        · rcases List.mem_cons.mp h with h2 | h2
          · exact ⟨1, "Y", by rw [h2]⟩
          · simp at h2)
    (by decide) (by decide) (by decide) (by decide)

/-! ### Claim C3 -/

/-- Counterexample to C3: merging two trees whose shared key `"k"` holds
lists of lengths 1 and 2 does not raise any error: `zip(*data)`
silently truncates to the shorter length and the merge returns a
result. -/
theorem data_merge_length_mismatch_counterexample :
    dataMergeAll
      [.dict [(.str "k", .seq [.leaf [[1]]])],
       .dict [(.str "k", .seq [.leaf [[2]], .leaf [[3]]])]] 0 =
      .ok (.dict [(.str "k", .seq [.leaf [[1], [2]]])]) := by
  simp [dataMergeAll, dataMergeL_dict, dataMergeL_seq, dataMergeL_leaf,
    mapOption, mapExcept, asDictL, asSeqL, asLeaf, lookupKey, concatArr,
    Except.map, List.find?, List.filter, List.range, List.range.loop, minLen]

/-- C3 amended: `data_merge` on list nodes never compares lengths; when
every other argument is also a list, a successful merge returns a list
whose length is the minimum of all the argument lengths (Python
`zip(*data)` truncation) and whose `j`-th element is the merge of the
arguments' `j`-th elements.  No error is raised for unequal lengths;
only the `isinstance` assert can fire, on a container-kind mismatch. -/
theorem data_merge_seq_truncates (xs : List Data) (rest : List Data)
    (ls : List (List Data)) (ax : Int) (m : Data)
    (hseqs : mapOption asSeqL rest = some ls)
    (hok : dataMergeL (.seq xs) rest ax = .ok m) :
    ∃ ys, m = .seq ys ∧
      ys.length = minLen (xs :: ls) ∧
      ∀ j (hj : j < ys.length),
        dataMergeL (xs.getD j default) (ls.map (fun l => l.getD j default)) 0 =
          .ok ys[j] := by
  rw [dataMergeL_seq, hseqs] at hok
  replace hok : (match mapExcept
      (fun p => dataMergeL p.2 (ls.map (fun l => l.getD p.1 default)) 0)
      ((List.range (ls.foldl (fun a l => min a l.length) xs.length)).zip xs) with
    | .ok ys => (.ok (.seq ys) : Except Err Data)
    | .error e => .error e) = .ok m := hok
  have hminLen : minLen (xs :: ls) = ls.foldl (fun a l => min a l.length) xs.length := rfl
  cases hme : mapExcept
      (fun p => dataMergeL p.2 (ls.map (fun l => l.getD p.1 default)) 0)
      ((List.range (ls.foldl (fun a l => min a l.length) xs.length)).zip xs) with
  | error e => rw [hme] at hok; cases hok
  | ok ys =>
    rw [hme] at hok
    cases hok
    have hnxs : minLen (xs :: ls) ≤ xs.length := minLen_le _ xs (by simp)
    have hlen : ys.length = minLen (xs :: ls) := by
      have h := mapExcept_ok_length _ _ _ hme
      rw [h]
      simp only [List.length_zip, List.length_range]
      rw [← hminLen]
      omega
    refine ⟨ys, rfl, hlen, ?_⟩
    intro j hj
    have hj2 : j < ((List.range (ls.foldl (fun a l => min a l.length) xs.length)).zip xs).length := by
      simp only [List.length_zip, List.length_range]
      rw [← hminLen]
      omega
    have h := mapExcept_ok_getElem _ _ _ hme j hj2 hj
    rw [List.getElem_zip] at h
    simp only [List.getElem_range] at h
    rw [List.getD_eq_getElem xs default (by omega : j < xs.length)]
    exact h

/-- Witness for the amended C3: the mismatched-length merge from the
counterexample satisfies the truncation description. -/
theorem data_merge_seq_truncates_witness :
    (mapOption asSeqL [Data.seq [.leaf [[2]], .leaf [[3]]]] =
      some [[Data.leaf [[2]], Data.leaf [[3]]]]) ∧
    (dataMergeL (.seq [.leaf [[1]]]) [.seq [.leaf [[2]], .leaf [[3]]]] 0 =
      .ok (.seq [.leaf [[1], [2]]])) ∧
    ∃ ys, (Data.seq [.leaf [[1], [2]]] : Data) = .seq ys ∧
      ys.length = minLen [[Data.leaf [[1]]], [Data.leaf [[2]], Data.leaf [[3]]]] ∧
      ∀ j (hj : j < ys.length),
        dataMergeL ([Data.leaf [[1]]].getD j default)
          ([[Data.leaf [[2]], Data.leaf [[3]]]].map (fun l => l.getD j default)) 0 =
          .ok ys[j] := by
  have hseqs : mapOption asSeqL [Data.seq [.leaf [[2]], .leaf [[3]]]] =
      some [[Data.leaf [[2]], Data.leaf [[3]]]] := by decide
  have hok : dataMergeL (.seq [.leaf [[1]]]) [.seq [.leaf [[2]], .leaf [[3]]]] 0 =
      .ok (.seq [.leaf [[1], [2]]]) := by
    simp [dataMergeL_seq, dataMergeL_leaf, mapOption, mapExcept, asSeqL, asLeaf,
      concatArr, Except.map, List.range, List.range.loop]
  exact ⟨hseqs, hok, data_merge_seq_truncates _ _ _ 0 _ hseqs hok⟩

/-! ### Claim C4 -/

/-- Counterexample to C4: merging two dicts with `axis = -1` still
concatenates the nested leaves along axis 0 (the recursive call in the
dict branch of `data_merge` drops the `axis` keyword), while the same
leaves merged at top level with `axis = -1` concatenate row-wise: the
two results differ. -/
theorem data_merge_axis_counterexample :
    dataMergeAll [.dict [(.str "k", .leaf [[1]])], .dict [(.str "k", .leaf [[2]])]]
        (-1) = .ok (.dict [(.str "k", .leaf [[1], [2]])]) ∧
    concatArr (-1) [[[1]], [[2]]] = .ok [[1, 2]] ∧
    Data.leaf [[1], [2]] ≠ Data.leaf [[1, 2]] := by
  refine ⟨?_, by decide, by decide⟩
  simp [dataMergeAll, dataMergeL_dict, dataMergeL_leaf, mapOption, mapExcept,
    asDictL, asLeaf, lookupKey, concatArr, Except.map, List.find?, List.filter]

/-! ### Helpers for the path-correspondence proofs -/

theorem map_fst_filter_keyPred (Q : Key → Bool) :
    ∀ es : List (Key × Data),
      (es.filter (fun kv => Q kv.1)).map Prod.fst = (es.map Prod.fst).filter Q
  | [] => rfl
  | kv :: es => by
    cases hq : Q kv.1 with
    | true =>
      rw [List.filter_cons_of_pos (by simpa using hq), List.map_cons, List.map_cons,
        List.filter_cons_of_pos (by simpa using hq), map_fst_filter_keyPred Q es]
    | false =>
      rw [List.filter_cons_of_neg (by simpa using hq), List.map_cons,
        List.filter_cons_of_neg (by simpa using hq), map_fst_filter_keyPred Q es]

theorem lookupKey_mem {es : List (Key × Data)} {k : Key} {v : Data}
    (h : lookupKey es k = some v) : (k, v) ∈ es := by
  simp only [lookupKey, Option.map_eq_some'] at h
  rcases h with ⟨kv, hfind, hsnd⟩
  have hmem := List.mem_of_find?_eq_some hfind
  have hp := List.find?_some hfind
  simp only [beq_iff_eq] at hp
  have : kv = (k, v) := by
    obtain ⟨k2, v2⟩ := kv
    simp only at hp hsnd
    rw [hp, hsnd]
  rw [← this]
  exact hmem

theorem wfKeys_dict_nodup {es : List (Key × Data)}
    (h : wfKeys (.dict es) = true) : (es.map Prod.fst).Nodup := by
  rw [wfKeys_dict, Bool.and_eq_true] at h
  exact (distinctKeysB_iff _).mp h.1

theorem wfKeys_dict_child {es : List (Key × Data)} {k : Key} {v : Data}
    (h : wfKeys (.dict es) = true) (hmem : (k, v) ∈ es) : wfKeys v = true := by
  rw [wfKeys_dict, Bool.and_eq_true, List.all_eq_true] at h
  exact h.2 (k, v) hmem

theorem wfKeys_seq_child {xs : List Data} {x : Data}
    (h : wfKeys (.seq xs) = true) (hmem : x ∈ xs) : wfKeys x = true := by
  rw [wfKeys_seq, List.all_eq_true] at h
  exact h x hmem

theorem wfKeys_tup_child {xs : List Data} {x : Data}
    (h : wfKeys (.tup xs) = true) (hmem : x ∈ xs) : wfKeys x = true := by
  rw [wfKeys_tup, List.all_eq_true] at h
  exact h x hmem

theorem concatArr_zero (as : List Arr) : concatArr 0 as = .ok as.flatten := by
  simp [concatArr]

theorem getNode_nil (t : Data) : getNode t [] = some t := by
  cases t <;> rfl

theorem getNode_dict (es : List (Key × Data)) (key : Key) (p : List PEl) :
    getNode (.dict es) (.k key :: p) =
      match lookupKey es key with
      | some v => getNode v p
      | none => none := rfl

theorem getNode_seq (xs : List Data) (n : Nat) (p : List PEl) :
    getNode (.seq xs) (.i n :: p) =
      match xs.get? n with
      | some v => getNode v p
      | none => none := rfl

theorem getNode_tup (xs : List Data) (n : Nat) (p : List PEl) :
    getNode (.tup xs) (.i n :: p) =
      match xs.get? n with
      | some v => getNode v p
      | none => none := rfl

theorem getNode_leaf_cons (a : Arr) (el : PEl) (p : List PEl) :
    getNode (.leaf a) (el :: p) = none := by
  cases el <;> rfl

theorem getNode_dict_key_mismatch (es : List (Key × Data)) (n : Nat) (p : List PEl) :
    getNode (.dict es) (.i n :: p) = none := rfl

theorem getNode_seq_key_mismatch (xs : List Data) (key : Key) (p : List PEl) :
    getNode (.seq xs) (.k key :: p) = none := rfl

theorem getNode_tup_key_mismatch (xs : List Data) (key : Key) (p : List PEl) :
    getNode (.tup xs) (.k key :: p) = none := rfl

theorem restMap_dict (ds : List (List (Key × Data))) (vs : List Data) (key : Key)
    (p2 : List PEl)
    (hvs : mapOption (fun d => lookupKey d key) ds = some vs) :
    (ds.map Data.dict).map (fun r => getNode r (.k key :: p2)) =
      vs.map (fun w => getNode w p2) := by
  have hlen := mapOption_some_length _ _ _ hvs
  apply List.ext_getElem
  · simp [hlen]
  · intro q h1 h2
    simp only [List.getElem_map]
    rw [getNode_dict]
    have hq := mapOption_some_getElem _ _ _ hvs q (by simpa using h1) (by simpa using h2)
    rw [hq]

theorem restMap_seq (ls : List (List Data)) (j : Nat) (p2 : List PEl)
    (hlt : ∀ q (hq : q < ls.length), j < ls[q].length) :
    (ls.map Data.seq).map (fun r => getNode r (.i j :: p2)) =
      (ls.map (fun l => l.getD j default)).map (fun w => getNode w p2) := by
  apply List.ext_getElem
  · simp
  · intro q h1 h2
    simp only [List.getElem_map]
    rw [getNode_seq]
    have hq : q < ls.length := by simpa using h1
    rw [List.get?_eq_getElem?, List.getElem?_eq_getElem (hlt q hq)]
    rw [List.getD_eq_getElem _ default (hlt q hq)]

theorem restMap_tup (ls : List (List Data)) (j : Nat) (p2 : List PEl)
    (hlt : ∀ q (hq : q < ls.length), j < ls[q].length) :
    (ls.map Data.tup).map (fun r => getNode r (.i j :: p2)) =
      (ls.map (fun l => l.getD j default)).map (fun w => getNode w p2) := by
  apply List.ext_getElem
  · simp
  · intro q h1 h2
    simp only [List.getElem_map]
    rw [getNode_tup]
    have hq : q < ls.length := by simpa using h1
    rw [List.get?_eq_getElem?, List.getElem?_eq_getElem (hlt q hq)]
    rw [List.getD_eq_getElem _ default (hlt q hq)]

theorem dict_merge_entry_spec (ds : List (List (Key × Data))) (kv r : Key × Data)
    (h : (match mapOption (fun d => lookupKey d kv.1) ds with
        | none => .error .keyError
        | some vs =>
          (dataMergeL kv.2 vs 0).map (fun m => (kv.1, m)) :
        Except Err (Key × Data)) = .ok r) :
    ∃ vs, mapOption (fun d => lookupKey d kv.1) ds = some vs ∧
      r.1 = kv.1 ∧ dataMergeL kv.2 vs 0 = .ok r.2 := by
  cases hmo : mapOption (fun d => lookupKey d kv.1) ds with
  | none => rw [hmo] at h; cases h
  | some vs =>
    rw [hmo] at h
    replace h : Except.map (fun m => (kv.1, m)) (dataMergeL kv.2 vs 0) = .ok r := h
    cases hd : dataMergeL kv.2 vs 0 with
    | error e =>
      rw [hd] at h
      simp only [Except.map] at h
      cases h
    | ok z =>
      rw [hd] at h
      simp only [Except.map] at h
      cases h
      exact ⟨vs, rfl, rfl, by rw [hd]⟩

theorem dataMergeL_path_spec :
    ∀ first : Data, ∀ (rest : List Data) (ax : Int) (m : Data),
      wfKeys first = true → (∀ r ∈ rest, wfKeys r = true) →
      dataMergeL first rest ax = .ok m →
      ((∀ p x, getNode m p = some (.leaf x) → p ≠ [] →
        ∃ a as, getNode first p = some (.leaf a) ∧
          rest.map (fun r => getNode r p) = as.map (fun y => some (.leaf y)) ∧
          x = (a :: as).flatten) ∧
       (∀ x, m = .leaf x → ∃ a as, first = .leaf a ∧ rest = as.map Data.leaf ∧
         concatArr ax (a :: as) = .ok x)) := by
  intro first
  induction first using Data.myInduction with
  | hleaf a =>
    intro rest ax m hk1 hk2 hok
    rw [dataMergeL_leaf] at hok
    cases hmo : mapOption asLeaf rest with
    | none => rw [hmo] at hok; cases hok
    | some as =>
      rw [hmo] at hok
      replace hok : Except.map Data.leaf (concatArr ax (a :: as)) = .ok m := hok
      cases hca : concatArr ax (a :: as) with
      | error e =>
        rw [hca] at hok
        simp only [Except.map] at hok
        cases hok
      | ok x0 =>
        rw [hca] at hok
        simp only [Except.map] at hok
        cases hok
        constructor
        · intro p x hp hpne
          cases p with
          | nil => exact absurd rfl hpne
          | cons el p2 => rw [getNode_leaf_cons] at hp; cases hp
        · intro x hx
          injection hx with hx0
          subst hx0
          exact ⟨a, as, rfl,
            mapOption_inv_map asLeaf Data.leaf (fun r b h => asLeaf_eq_some.mp h)
              rest as hmo, hca⟩
  | hdict es ih =>
    intro rest ax m hk1 hk2 hok
    rw [dataMergeL_dict] at hok
    cases hmo : mapOption asDictL rest with
    | none => rw [hmo] at hok; cases hok
    | some ds =>
      rw [hmo] at hok
      replace hok : (match mapExcept
          (fun kv =>
            (match mapOption (fun d => lookupKey d kv.1) ds with
            | none => .error .keyError
            | some vs =>
              (dataMergeL kv.2 vs 0).map (fun m => (kv.1, m)) :
              Except Err (Key × Data)))
          (es.filter (fun kv => ds.all (fun d => d.any (fun kv2 => kv2.1 == kv.1)))) with
        | .ok ms => (.ok (.dict ms) : Except Err Data)
        | .error e => .error e) = .ok m := hok
      cases hme : mapExcept
          (fun kv =>
            (match mapOption (fun d => lookupKey d kv.1) ds with
            | none => .error .keyError
            | some vs =>
              (dataMergeL kv.2 vs 0).map (fun m => (kv.1, m)) :
              Except Err (Key × Data)))
          (es.filter (fun kv => ds.all (fun d => d.any (fun kv2 => kv2.1 == kv.1)))) with
      | error e => rw [hme] at hok; cases hok
      | ok ms =>
        rw [hme] at hok
        cases hok
        have hrest : rest = ds.map Data.dict :=
          mapOption_inv_map asDictL Data.dict (fun r d h => asDictL_eq_some.mp h)
            rest ds hmo
        have hndES : (es.map Prod.fst).Nodup := wfKeys_dict_nodup hk1
        have hlen := mapExcept_ok_length _ _ _ hme
        constructor
        · intro p x hp hpne
          cases p with
          | nil => exact absurd rfl hpne
          | cons el p2 =>
            cases el with
            | i n => rw [getNode_dict_key_mismatch] at hp; cases hp
            | k key =>
              rw [getNode_dict] at hp
              cases hlk : lookupKey ms key with
              | none => rw [hlk] at hp; cases hp
              | some mv =>
                rw [hlk] at hp
                replace hp : getNode mv p2 = some (.leaf x) := hp
                have hmemMS : (key, mv) ∈ ms := lookupKey_mem hlk
                rcases List.mem_iff_getElem.mp hmemMS with ⟨i, hi, hmsI⟩
                have hiK : i < (es.filter (fun kv => ds.all
                    (fun d => d.any (fun kv2 => kv2.1 == kv.1)))).length := by
                  omega
                have hFi := mapExcept_ok_getElem _ _ _ hme i hiK hi
                rw [hmsI] at hFi
                rcases dict_merge_entry_spec ds _ _ hFi with ⟨vs, hvs, hfst, hmrg⟩
                simp only at hfst hmrg
                set kvI := (es.filter (fun kv => ds.all
                    (fun d => d.any (fun kv2 => kv2.1 == kv.1))))[i] with hkvI
                have hmemKeep : kvI ∈ es.filter (fun kv => ds.all
                    (fun d => d.any (fun kv2 => kv2.1 == kv.1))) := by
                  rw [hkvI]
                  exact List.getElem_mem hiK
                have hmemES : kvI ∈ es := List.mem_of_mem_filter hmemKeep
                have hkvIpair : kvI = (key, kvI.2) := by
                  rw [hfst]
                have hmemES2 : (key, kvI.2) ∈ es := by rw [← hkvIpair]; exact hmemES
                have hlkES : lookupKey es key = some kvI.2 :=
                  lookupKey_eq_of_mem_nodup hmemES2 hndES
                have hwfv0 : wfKeys kvI.2 = true := wfKeys_dict_child hk1 hmemES2
                have hwfvs : ∀ w ∈ vs, wfKeys w = true := by
                  intro w hw
                  rcases List.mem_iff_getElem.mp hw with ⟨q, hq, hvsq⟩
                  have hqd : q < ds.length := by
                    have := mapOption_some_length _ _ _ hvs
                    omega
                  have hlkq := mapOption_some_getElem _ _ _ hvs q hqd hq
                  have hmemDq : (key, vs[q]) ∈ ds[q] := by
                    rw [← hfst] at hlkq
                    exact lookupKey_mem hlkq
                  have hwfDq : wfKeys (.dict ds[q]) = true := by
                    apply hk2
                    rw [hrest]
                    exact List.mem_map_of_mem Data.dict (List.getElem_mem hqd)
                  rw [← hvsq]
                  exact wfKeys_dict_child hwfDq hmemDq
                have hIH := ih key kvI.2 hmemES2 vs 0 mv hwfv0 hwfvs hmrg
                have hrestmap := restMap_dict ds vs key p2 (by rw [hfst]; exact hvs)
                cases hp2e : p2 with
                | nil =>
                  subst hp2e
                  rw [getNode_nil] at hp
                  injection hp with hmveq
                  rcases hIH.2 x hmveq with ⟨a, as, hv0leaf, hvsleaf, hcc⟩
                  rw [concatArr_zero] at hcc
                  injection hcc with hx
                  refine ⟨a, as, ?_, ?_, hx.symm⟩
                  · rw [getNode_dict, hlkES]
                    show getNode kvI.2 [] = some (Data.leaf a)
                    rw [getNode_nil, hv0leaf]
                  · rw [hrest, hrestmap, hvsleaf, List.map_map]
                    apply List.map_congr_left
                    intro y hy
                    simp [getNode_nil]
                | cons el2 p3 =>
                  subst hp2e
                  have hpne2 : (el2 :: p3 : List PEl) ≠ [] := by simp
                  rcases hIH.1 _ x hp hpne2 with ⟨a, as, hgn, hmapvs, hx⟩
                  refine ⟨a, as, ?_, ?_, hx⟩
                  · rw [getNode_dict, hlkES]
                    exact hgn
                  · rw [hrest, hrestmap, hmapvs]
        · intro x hx
          cases hx
  | hseq xs ih =>
    intro rest ax m hk1 hk2 hok
    rw [dataMergeL_seq] at hok
    cases hmo : mapOption asSeqL rest with
    | none => rw [hmo] at hok; cases hok
    | some ls =>
      rw [hmo] at hok
      replace hok : (match mapExcept
          (fun p => dataMergeL p.2 (ls.map (fun l => l.getD p.1 default)) 0)
          ((List.range (ls.foldl (fun a l => min a l.length) xs.length)).zip xs) with
        | .ok ys => (.ok (.seq ys) : Except Err Data)
        | .error e => .error e) = .ok m := hok
      cases hme : mapExcept
          (fun p => dataMergeL p.2 (ls.map (fun l => l.getD p.1 default)) 0)
          ((List.range (ls.foldl (fun a l => min a l.length) xs.length)).zip xs) with
      | error e => rw [hme] at hok; cases hok
      | ok ys =>
        rw [hme] at hok
        cases hok
        have hrest : rest = ls.map Data.seq :=
          mapOption_inv_map asSeqL Data.seq (fun r d h => asSeqL_eq_some.mp h)
            rest ls hmo
        have hminLen : minLen (xs :: ls) =
            ls.foldl (fun a l => min a l.length) xs.length := rfl
        have hnxs : minLen (xs :: ls) ≤ xs.length := minLen_le _ xs (by simp)
        have hlen := mapExcept_ok_length _ _ _ hme
        rw [List.length_zip, List.length_range, ← hminLen] at hlen
        have hlen2 : ys.length = minLen (xs :: ls) := by omega
        constructor
        · intro p x hp hpne
          cases p with
          | nil => exact absurd rfl hpne
          | cons el p2 =>
            cases el with
            | k key => rw [getNode_seq_key_mismatch] at hp; cases hp
            | i j =>
              rw [getNode_seq] at hp
              cases hyj : ys.get? j with
              | none => rw [hyj] at hp; cases hp
              | some yv =>
                rw [hyj] at hp
                replace hp : getNode yv p2 = some (.leaf x) := hp
                rw [List.get?_eq_getElem?, List.getElem?_eq_some] at hyj
                rcases hyj with ⟨hjys, hyj⟩
                have hjx : j < xs.length := by omega
                have hjzip : j < ((List.range
                    (ls.foldl (fun a l => min a l.length) xs.length)).zip xs).length := by
                  simp only [List.length_zip, List.length_range, ← hminLen]
                  omega
                have hFj := mapExcept_ok_getElem _ _ _ hme j hjzip hjys
                rw [List.getElem_zip] at hFj
                simp only [List.getElem_range] at hFj
                rw [hyj] at hFj
                have hwfxj : wfKeys xs[j] = true :=
                  wfKeys_seq_child hk1 (List.getElem_mem hjx)
                have hlt : ∀ q (hq : q < ls.length), j < ls[q].length := by
                  intro q hq
                  have hle : minLen (xs :: ls) ≤ ls[q].length :=
                    minLen_le _ _ (List.mem_cons_of_mem _ (List.getElem_mem hq))
                  omega
                have hwfvs : ∀ w ∈ ls.map (fun l => l.getD j default),
                    wfKeys w = true := by
                  intro w hw
                  rcases List.mem_map.mp hw with ⟨l0, hl0, hw0⟩
                  rcases List.mem_iff_getElem.mp hl0 with ⟨q, hq, hl0q⟩
                  have hwfLq : wfKeys (.seq l0) = true := by
                    apply hk2
                    rw [hrest]
                    exact List.mem_map_of_mem Data.seq hl0
                  have hjl0 : j < l0.length := by rw [← hl0q]; exact hlt q hq
                  rw [← hw0, List.getD_eq_getElem _ default hjl0]
                  exact wfKeys_seq_child hwfLq (List.getElem_mem hjl0)
                have hIH := ih xs[j] (List.getElem_mem hjx) _ 0 yv hwfxj hwfvs hFj
                have hrestmap := restMap_seq ls j p2 hlt
                cases hp2e : p2 with
                | nil =>
                  subst hp2e
                  rw [getNode_nil] at hp
                  injection hp with hmveq
                  rcases hIH.2 x hmveq with ⟨a, as, hxleaf, hvsleaf, hcc⟩
                  rw [concatArr_zero] at hcc
                  injection hcc with hx
                  refine ⟨a, as, ?_, ?_, hx.symm⟩
                  · rw [getNode_seq, List.get?_eq_getElem?, List.getElem?_eq_getElem hjx]
                    show getNode xs[j] [] = some (Data.leaf a)
                    rw [getNode_nil, hxleaf]
                  · rw [hrest, hrestmap, hvsleaf, List.map_map]
                    apply List.map_congr_left
                    intro y hy
                    simp [getNode_nil]
                | cons el2 p3 =>
                  subst hp2e
                  have hpne2 : (el2 :: p3 : List PEl) ≠ [] := by simp
                  rcases hIH.1 _ x hp hpne2 with ⟨a, as, hgn, hmapvs, hx⟩
                  refine ⟨a, as, ?_, ?_, hx⟩
                  · rw [getNode_seq, List.get?_eq_getElem?, List.getElem?_eq_getElem hjx]
                    exact hgn
                  · rw [hrest, hrestmap, hmapvs]
        · intro x hx
          cases hx
  | htup xs ih =>
    intro rest ax m hk1 hk2 hok
    rw [dataMergeL_tup] at hok
    cases hmo : mapOption asTupL rest with
    | none => rw [hmo] at hok; cases hok
    | some ls =>
      rw [hmo] at hok
      replace hok : (match mapExcept
          (fun p => dataMergeL p.2 (ls.map (fun l => l.getD p.1 default)) 0)
          ((List.range (ls.foldl (fun a l => min a l.length) xs.length)).zip xs) with
        | .ok ys => (.ok (.tup ys) : Except Err Data)
        | .error e => .error e) = .ok m := hok
      cases hme : mapExcept
          (fun p => dataMergeL p.2 (ls.map (fun l => l.getD p.1 default)) 0)
          ((List.range (ls.foldl (fun a l => min a l.length) xs.length)).zip xs) with
      | error e => rw [hme] at hok; cases hok
      | ok ys =>
        rw [hme] at hok
        cases hok
        have hrest : rest = ls.map Data.tup :=
          mapOption_inv_map asTupL Data.tup (fun r d h => asTupL_eq_some.mp h)
            rest ls hmo
        have hminLen : minLen (xs :: ls) =
            ls.foldl (fun a l => min a l.length) xs.length := rfl
        have hnxs : minLen (xs :: ls) ≤ xs.length := minLen_le _ xs (by simp)
        have hlen := mapExcept_ok_length _ _ _ hme
        rw [List.length_zip, List.length_range, ← hminLen] at hlen
        have hlen2 : ys.length = minLen (xs :: ls) := by omega
        constructor
        · intro p x hp hpne
          cases p with
          | nil => exact absurd rfl hpne
          | cons el p2 =>
            cases el with
            | k key => rw [getNode_tup_key_mismatch] at hp; cases hp
            | i j =>
              rw [getNode_tup] at hp
              cases hyj : ys.get? j with
              | none => rw [hyj] at hp; cases hp
              | some yv =>
                rw [hyj] at hp
                replace hp : getNode yv p2 = some (.leaf x) := hp
                rw [List.get?_eq_getElem?, List.getElem?_eq_some] at hyj
                rcases hyj with ⟨hjys, hyj⟩
                have hjx : j < xs.length := by omega
                have hjzip : j < ((List.range
                    (ls.foldl (fun a l => min a l.length) xs.length)).zip xs).length := by
                  simp only [List.length_zip, List.length_range, ← hminLen]
                  omega
                have hFj := mapExcept_ok_getElem _ _ _ hme j hjzip hjys
                rw [List.getElem_zip] at hFj
                simp only [List.getElem_range] at hFj
                rw [hyj] at hFj
                have hwfxj : wfKeys xs[j] = true :=
                  wfKeys_tup_child hk1 (List.getElem_mem hjx)
                have hlt : ∀ q (hq : q < ls.length), j < ls[q].length := by
                  intro q hq
                  have hle : minLen (xs :: ls) ≤ ls[q].length :=
                    minLen_le _ _ (List.mem_cons_of_mem _ (List.getElem_mem hq))
                  omega
                have hwfvs : ∀ w ∈ ls.map (fun l => l.getD j default),
                    wfKeys w = true := by
                  intro w hw
                  rcases List.mem_map.mp hw with ⟨l0, hl0, hw0⟩
                  rcases List.mem_iff_getElem.mp hl0 with ⟨q, hq, hl0q⟩
                  have hwfLq : wfKeys (.tup l0) = true := by
                    apply hk2
                    rw [hrest]
                    exact List.mem_map_of_mem Data.tup hl0
                  have hjl0 : j < l0.length := by rw [← hl0q]; exact hlt q hq
                  rw [← hw0, List.getD_eq_getElem _ default hjl0]
                  exact wfKeys_tup_child hwfLq (List.getElem_mem hjl0)
                have hIH := ih xs[j] (List.getElem_mem hjx) _ 0 yv hwfxj hwfvs hFj
                have hrestmap := restMap_tup ls j p2 hlt
                cases hp2e : p2 with
                | nil =>
                  subst hp2e
                  rw [getNode_nil] at hp
                  injection hp with hmveq
                  rcases hIH.2 x hmveq with ⟨a, as, hxleaf, hvsleaf, hcc⟩
                  rw [concatArr_zero] at hcc
                  injection hcc with hx
                  refine ⟨a, as, ?_, ?_, hx.symm⟩
                  · rw [getNode_tup, List.get?_eq_getElem?, List.getElem?_eq_getElem hjx]
                    show getNode xs[j] [] = some (Data.leaf a)
                    rw [getNode_nil, hxleaf]
                  · rw [hrest, hrestmap, hvsleaf, List.map_map]
                    apply List.map_congr_left
                    intro y hy
                    simp [getNode_nil]
                | cons el2 p3 =>
                  subst hp2e
                  have hpne2 : (el2 :: p3 : List PEl) ≠ [] := by simp
                  rcases hIH.1 _ x hp hpne2 with ⟨a, as, hgn, hmapvs, hx⟩
                  refine ⟨a, as, ?_, ?_, hx⟩
                  · rw [getNode_tup, List.get?_eq_getElem?, List.getElem?_eq_getElem hjx]
                    exact hgn
                  · rw [hrest, hrestmap, hmapvs]
        · intro x hx
          cases hx

theorem wfData_leaf (a : Arr) : wfData (.leaf a) = true := by rw [wfData]

theorem wfKeys_leaf (a : Arr) : wfKeys (.leaf a) = true := by rw [wfKeys]

theorem uniformExtent_leaf (N : Nat) (a : Arr) :
    uniformExtent N (.leaf a) = (a.length == N) := by rw [uniformExtent]

theorem flatOk_leaf (f : Key → Key → Key) (a : Arr) :
    flatOk f (.leaf a) = true := by rw [flatOk]

theorem leafPathsOf_leaf (a : Arr) :
    leafPathsOf (.leaf a) = [([], .leaf a)] := by rw [leafPathsOf]

theorem sameStructure_leaf (a b : Arr) :
    sameStructure (.leaf a) (.leaf b) = true := by rw [sameStructure]

/-- C4 amended: the `axis` argument of `data_merge` reaches only a leaf
at the very root: when the root is a container the result is identical
to the axis-0 merge (the recursive calls in the source drop `axis`), so
on success every leaf of the result at a non-root path is the axis-0
(batch-dimension) concatenation of the corresponding leaves of all the
inputs; only when the whole tree is a single leaf is the concatenation
performed along the requested axis. -/
theorem data_merge_concat_at_paths (first : Data) (rest : List Data) (ax : Int)
    (m : Data)
    (hk1 : wfKeys first = true)
    (hk2 : ∀ r ∈ rest, wfKeys r = true)
    (hok : dataMergeL first rest ax = .ok m) :
    (first.isLeaf = false → dataMergeL first rest 0 = .ok m) ∧
    (∀ p x, getNode m p = some (.leaf x) → p ≠ [] →
      ∃ a as, getNode first p = some (.leaf a) ∧
        rest.map (fun r => getNode r p) = as.map (fun y => some (.leaf y)) ∧
        x = (a :: as).flatten) ∧
    (∀ x, m = .leaf x → ∃ a as, first = .leaf a ∧ rest = as.map Data.leaf ∧
      concatArr ax (a :: as) = .ok x) := by
  have hspec := dataMergeL_path_spec first rest ax m hk1 hk2 hok
  refine ⟨?_, hspec.1, hspec.2⟩
  intro hnl
  cases first with
  | leaf a => simp [Data.isLeaf] at hnl
  | dict es =>
    rw [dataMergeL_dict] at hok ⊢
    exact hok
  | seq xs =>
    rw [dataMergeL_seq] at hok ⊢
    exact hok
  | tup xs =>
    rw [dataMergeL_tup] at hok ⊢
    exact hok

/-- Witness for the amended C4: the counterexample input, where merging
nested dicts with `axis = -1` equals the axis-0 merge and the single
result leaf at path `["k"]` is the axis-0 concatenation `[[1],[2]]`. -/
theorem data_merge_concat_at_paths_witness :
    (wfKeys (.dict [(.str "k", .leaf [[1]])]) = true) ∧
    (dataMergeL (.dict [(.str "k", .leaf [[1]])]) [.dict [(.str "k", .leaf [[2]])]]
      (-1) = .ok (.dict [(.str "k", .leaf [[1], [2]])])) ∧
    ((Data.dict [(.str "k", .leaf [[1]])]).isLeaf = false →
      dataMergeL (.dict [(.str "k", .leaf [[1]])]) [.dict [(.str "k", .leaf [[2]])]]
        0 = .ok (.dict [(.str "k", .leaf [[1], [2]])])) ∧
    (∀ p x, getNode (.dict [(.str "k", .leaf [[1], [2]])]) p = some (.leaf x) →
      p ≠ [] →
      ∃ a as, getNode (.dict [(.str "k", .leaf [[1]])]) p = some (.leaf a) ∧
        [Data.dict [(.str "k", .leaf [[2]])]].map (fun r => getNode r p) =
          as.map (fun y => some (.leaf y)) ∧
        x = (a :: as).flatten) := by
  have hk1 : wfKeys (Data.dict [(.str "k", .leaf [[1]])]) = true := by
    simp [wfKeys_dict, wfKeys_leaf, distinctKeysB]
  have hk2 : ∀ r ∈ [Data.dict [(.str "k", Data.leaf [[2]])]], wfKeys r = true := by
    intro r hr
    rcases List.mem_cons.mp hr with h | h
    · rw [h]
      simp [wfKeys_dict, wfKeys_leaf, distinctKeysB]
    · simp at h
  have hok : dataMergeL (.dict [(.str "k", .leaf [[1]])])
      [.dict [(.str "k", .leaf [[2]])]] (-1) =
      .ok (.dict [(.str "k", .leaf [[1], [2]])]) := by
    simp [dataMergeL_dict, dataMergeL_leaf, mapOption, mapExcept,
      asDictL, asLeaf, lookupKey, concatArr, Except.map, List.find?, List.filter]
  have h := data_merge_concat_at_paths _ _ _ _ hk1 hk2 hok
  exact ⟨hk1, hok, h.1, h.2.1⟩

/-! ### Claim C2 -/

/-- C2: on dict nodes `data_merge` requires every input to be a dict and
keeps exactly the keys present in every input — the key intersection,
iterated here in first-input order — silently dropping keys present in
only some inputs; each surviving key's child is the recursive merge of
the corresponding children of all inputs. -/
theorem data_merge_key_intersection (es : List (Key × Data)) (rest : List Data)
    (ax : Int) (m : Data)
    (hok : dataMergeL (.dict es) rest ax = .ok m) :
    ∃ ds ms, mapOption asDictL rest = some ds ∧ rest = ds.map Data.dict ∧
      m = .dict ms ∧
      (ms.map Prod.fst = (es.map Prod.fst).filter
        (fun k => ds.all (fun d => d.any (fun kv2 => kv2.1 == k)))) ∧
      (∀ k, k ∈ ms.map Prod.fst ↔
        (k ∈ es.map Prod.fst ∧ ∀ d ∈ ds, k ∈ d.map Prod.fst)) ∧
      (∀ i (h1 : i < ms.length), ∃ vs,
        mapOption (fun d => lookupKey d (ms[i].1)) ds = some vs ∧
        ∃ (h2 : i < (es.filter (fun kv => ds.all (fun d => d.any
            (fun kv2 => kv2.1 == kv.1)))).length),
          ms[i].1 = (es.filter (fun kv => ds.all (fun d => d.any
            (fun kv2 => kv2.1 == kv.1))))[i].1 ∧
          dataMergeL ((es.filter (fun kv => ds.all (fun d => d.any
            (fun kv2 => kv2.1 == kv.1))))[i].2) vs 0 = .ok (ms[i].2)) := by
  rw [dataMergeL_dict] at hok
  cases hmo : mapOption asDictL rest with
  | none => rw [hmo] at hok; cases hok
  | some ds =>
    rw [hmo] at hok
    replace hok : (match mapExcept
        (fun kv =>
          (match mapOption (fun d => lookupKey d kv.1) ds with
          | none => .error .keyError
          | some vs =>
            (dataMergeL kv.2 vs 0).map (fun m => (kv.1, m)) :
            Except Err (Key × Data)))
        (es.filter (fun kv => ds.all (fun d => d.any (fun kv2 => kv2.1 == kv.1)))) with
      | .ok ms => (.ok (.dict ms) : Except Err Data)
      | .error e => .error e) = .ok m := hok
    cases hme : mapExcept
        (fun kv =>
          (match mapOption (fun d => lookupKey d kv.1) ds with
          | none => .error .keyError
          | some vs =>
            (dataMergeL kv.2 vs 0).map (fun m => (kv.1, m)) :
            Except Err (Key × Data)))
        (es.filter (fun kv => ds.all (fun d => d.any (fun kv2 => kv2.1 == kv.1)))) with
    | error e => rw [hme] at hok; cases hok
    | ok ms =>
      rw [hme] at hok
      cases hok
      have hrest : rest = ds.map Data.dict :=
        mapOption_inv_map asDictL Data.dict (fun r d h => asDictL_eq_some.mp h)
          rest ds hmo
      have hlen := mapExcept_ok_length _ _ _ hme
      have hfst : ∀ i (h1 : i < ms.length), ms[i].1 =
          (es.filter (fun kv => ds.all (fun d => d.any
            (fun kv2 => kv2.1 == kv.1))))[i].1 := by
        intro i h1
        have hFi := mapExcept_ok_getElem _ _ _ hme i (by omega) h1
        rcases dict_merge_entry_spec ds _ _ hFi with ⟨vs, hvs, hf, hmrg⟩
        exact hf
      have hkeys : ms.map Prod.fst = (es.map Prod.fst).filter
          (fun k => ds.all (fun d => d.any (fun kv2 => kv2.1 == k))) := by
        rw [← map_fst_filter_keyPred
          (fun k => ds.all (fun d => d.any (fun kv2 => kv2.1 == k))) es]
        apply List.ext_getElem
        · simp [hlen]
        · intro i hi1 hi2
          simp only [List.getElem_map]
          exact hfst i (by simpa using hi1)
      refine ⟨ds, ms, rfl, hrest, rfl, hkeys, ?_, ?_⟩
      · intro k
        rw [hkeys, List.mem_filter]
        constructor
        · intro ⟨hmem, hall⟩
          refine ⟨hmem, ?_⟩
          rw [List.all_eq_true] at hall
          intro d hd
          exact (any_fst_beq_iff d k).mp (hall d hd)
        · intro ⟨hmem, hall⟩
          refine ⟨hmem, ?_⟩
          rw [List.all_eq_true]
          intro d hd
          exact (any_fst_beq_iff d k).mpr (hall d hd)
      · intro i h1
        have hFi := mapExcept_ok_getElem _ _ _ hme i (by omega) h1
        rcases dict_merge_entry_spec ds _ _ hFi with ⟨vs, hvs, hf, hmrg⟩
        refine ⟨vs, ?_, by omega, hf, hmrg⟩
        simp only [hf]
        exact hvs

/-- Witness for C2: merging `{"a": x, "b": y}` with `{"b": y2, "c": z}`
keeps only key `"b"`, whose leaf is the axis-0 concatenation of the two
`"b"` leaves; keys `"a"` and `"c"` are silently dropped. -/
theorem data_merge_key_intersection_witness :
    (dataMergeL (.dict [(.str "a", .leaf [[1]]), (.str "b", .leaf [[2]])])
      [.dict [(.str "b", .leaf [[3]]), (.str "c", .leaf [[4]])]] 0 =
      .ok (.dict [(.str "b", .leaf [[2], [3]])])) ∧
    (∃ ds ms,
      mapOption asDictL [Data.dict [(.str "b", .leaf [[3]]), (.str "c", .leaf [[4]])]] =
        some ds ∧
      [Data.dict [(.str "b", .leaf [[3]]), (.str "c", .leaf [[4]])]] = ds.map Data.dict ∧
      (Data.dict [(.str "b", .leaf [[2], [3]])] : Data) = .dict ms ∧
      (ms.map Prod.fst =
        ([(Key.str "a", Data.leaf [[1]]), (Key.str "b", Data.leaf [[2]])].map Prod.fst).filter
          (fun k => ds.all (fun d => d.any (fun kv2 => kv2.1 == k)))) ∧
      (∀ k, k ∈ ms.map Prod.fst ↔
        (k ∈ [(Key.str "a", Data.leaf [[1]]), (Key.str "b", Data.leaf [[2]])].map Prod.fst ∧
          ∀ d ∈ ds, k ∈ d.map Prod.fst)) ∧
      (∀ i (h1 : i < ms.length), ∃ vs,
        mapOption (fun d => lookupKey d (ms[i].1)) ds = some vs ∧
        ∃ (h2 : i < ([(Key.str "a", Data.leaf [[1]]), (Key.str "b", Data.leaf [[2]])].filter
            (fun kv => ds.all (fun d => d.any (fun kv2 => kv2.1 == kv.1)))).length),
          ms[i].1 = ([(Key.str "a", Data.leaf [[1]]), (Key.str "b", Data.leaf [[2]])].filter
            (fun kv => ds.all (fun d => d.any (fun kv2 => kv2.1 == kv.1))))[i].1 ∧
          dataMergeL (([(Key.str "a", Data.leaf [[1]]), (Key.str "b", Data.leaf [[2]])].filter
            (fun kv => ds.all (fun d => d.any (fun kv2 => kv2.1 == kv.1))))[i].2) vs 0 =
            .ok (ms[i].2))) := by
  have hok : dataMergeL (.dict [(.str "a", .leaf [[1]]), (.str "b", .leaf [[2]])])
      [.dict [(.str "b", .leaf [[3]]), (.str "c", .leaf [[4]])]] 0 =
      .ok (.dict [(.str "b", .leaf [[2], [3]])]) := by
    simp [dataMergeL_dict, dataMergeL_leaf, mapOption, mapExcept, asDictL, asLeaf,
      lookupKey, concatArr, Except.map, List.find?, List.filter]
  exact ⟨hok, data_merge_key_intersection _ _ 0 _ hok⟩

/-! ### Claim C5 -/

theorem mem_zip_map_self (l : List α) (g : α → β) (pr : α × β)
    (h : pr ∈ l.zip (l.map g)) : pr.2 = g pr.1 ∧ pr.1 ∈ l := by
  rcases List.mem_iff_getElem.mp h with ⟨i, hi, hpr⟩
  rw [List.getElem_zip] at hpr
  have hil : i < l.length := by
    simp only [List.length_zip, List.length_map, min_self] at hi
    exact hi
  constructor
  · rw [← hpr]
    simp
  · rw [← hpr]
    exact List.getElem_mem hil

theorem dataMap_sameStructure (f : Arr → Arr) :
    ∀ t, sameStructure t (dataMap f t) = true := by
  intro t
  induction t using Data.myInduction with
  | hleaf a => rw [dataMap_leaf, sameStructure_leaf]
  | hdict es ih =>
    rw [dataMap_dict, sameStructure_dict]
    rw [Bool.and_eq_true]
    constructor
    · rw [List.map_map]
      exact beq_self_eq_true _
    · rw [List.all_eq_true]
      intro pr hpr
      rcases mem_zip_map_self es (fun kv => (kv.1, dataMap f kv.2)) pr hpr with
        ⟨hsnd, hmem⟩
      rw [hsnd]
      exact ih pr.1.1 pr.1.2 (by rw [← Prod.mk.eta (p := pr.1)] at hmem; exact hmem)
  | hseq xs ih =>
    rw [dataMap_seq, sameStructure_seq]
    rw [Bool.and_eq_true]
    constructor
    · rw [List.length_map]
      exact beq_self_eq_true _
    · rw [List.all_eq_true]
      intro pr hpr
      rcases mem_zip_map_self xs (dataMap f) pr hpr with ⟨hsnd, hmem⟩
      rw [hsnd]
      exact ih pr.1 hmem
  | htup xs ih =>
    rw [dataMap_tup, sameStructure_tup]
    rw [Bool.and_eq_true]
    constructor
    · rw [List.length_map]
      exact beq_self_eq_true _
    · rw [List.all_eq_true]
      intro pr hpr
      rcases mem_zip_map_self xs (dataMap f) pr hpr with ⟨hsnd, hmem⟩
      rw [hsnd]
      exact ih pr.1 hmem

theorem dataMap_leaves (f : Arr → Arr) :
    ∀ t, leaves (dataMap f t) = (leaves t).map f := by
  intro t
  induction t using Data.myInduction with
  | hleaf a => rw [dataMap_leaf, leaves_leaf, leaves_leaf]; rfl
  | hdict es ih =>
    rw [dataMap_dict, leaves_dict, leaves_dict, List.map_flatten, List.map_map,
      List.map_map]
    congr 1
    apply List.map_congr_left
    intro kv hkv
    exact ih kv.1 kv.2 (by rw [← Prod.mk.eta (p := kv)] at hkv; exact hkv)
  | hseq xs ih =>
    rw [dataMap_seq, leaves_seq, leaves_seq, List.map_flatten, List.map_map,
      List.map_map]
    congr 1
    apply List.map_congr_left
    intro x hx
    exact ih x hx
  | htup xs ih =>
    rw [dataMap_tup, leaves_tup, leaves_tup, List.map_flatten, List.map_map,
      List.map_map]
    congr 1
    apply List.map_congr_left
    intro x hx
    exact ih x hx

theorem lookupKey_map_value :
    ∀ (es : List (Key × Data)) (g : Key × Data → Data) (key : Key),
      lookupKey (es.map (fun kv => (kv.1, g kv))) key =
        (es.find? (fun kv => kv.1 == key)).map g
  | [], g, key => rfl
  | kv :: es, g, key => by
    simp only [List.map_cons, lookupKey, List.find?_cons]
    cases hb : (kv.1 == key) with
    | true => simp
    | false =>
      simp only
      have hrec := lookupKey_map_value es g key
      simp only [lookupKey] at hrec
      rw [hrec]

theorem dataMap_getNode (f : Arr → Arr) :
    ∀ t p, getNode (dataMap f t) p = (getNode t p).map (dataMap f) := by
  intro t
  induction t using Data.myInduction with
  | hleaf a =>
    intro p
    cases p with
    | nil => rw [getNode_nil, getNode_nil, Option.map_some', dataMap_leaf]
    | cons el p2 => rw [dataMap_leaf, getNode_leaf_cons, getNode_leaf_cons]; rfl

  | hdict es ih =>
    intro p
    cases p with
    | nil => rw [getNode_nil, getNode_nil, Option.map_some']
    | cons el p2 =>
      cases el with
      | i n =>
        rw [dataMap_dict, getNode_dict_key_mismatch, getNode_dict_key_mismatch]
        rfl
      | k key =>
        rw [dataMap_dict, getNode_dict, getNode_dict,
          lookupKey_map_value es (fun kv => dataMap f kv.2) key]
        cases hf : es.find? (fun kv => kv.1 == key) with
        | none =>
          simp only [lookupKey, hf]
          rfl
        | some kv =>
          simp only [lookupKey, hf, Option.map_some']
          have hmem := List.mem_of_find?_eq_some hf
          exact ih kv.1 kv.2 (by rw [← Prod.mk.eta (p := kv)] at hmem; exact hmem) p2
  | hseq xs ih =>
    intro p
    cases p with
    | nil => rw [getNode_nil, getNode_nil, Option.map_some']
    | cons el p2 =>
      cases el with
      | k key =>
        rw [dataMap_seq, getNode_seq_key_mismatch, getNode_seq_key_mismatch]
        rfl
      | i n =>
        rw [dataMap_seq, getNode_seq, getNode_seq, List.get?_eq_getElem?,
          List.get?_eq_getElem?, List.getElem?_map]
        cases hg : xs[n]? with
        | none => rfl
        | some x =>
          simp only [Option.map_some']
          rcases List.getElem?_eq_some.mp hg with ⟨hn, hx⟩
          have hmem : x ∈ xs := by rw [← hx]; exact List.getElem_mem hn
          exact ih x hmem p2
  | htup xs ih =>
    intro p
    cases p with
    | nil => rw [getNode_nil, getNode_nil, Option.map_some']
    | cons el p2 =>
      cases el with
      | k key =>
        rw [dataMap_tup, getNode_tup_key_mismatch, getNode_tup_key_mismatch]
        rfl
      | i n =>
        rw [dataMap_tup, getNode_tup, getNode_tup, List.get?_eq_getElem?,
          List.get?_eq_getElem?, List.getElem?_map]
        cases hg : xs[n]? with
        | none => rfl
        | some x =>
          simp only [Option.map_some']
          rcases List.getElem?_eq_some.mp hg with ⟨hn, hx⟩
          have hmem : x ∈ xs := by rw [← hx]; exact List.getElem_mem hn
          exact ih x hmem p2

/-- C5: `data_map` returns a tree structurally isomorphic to its input
(same key lists, ordering, lengths and arities), the leaf function is
applied exactly once per leaf in depth-first order (the result's leaf
list is the mapped leaf list of the input), and the node at every path
of the result is the mapped node at the same path of the input — in
particular every output leaf is `fn` of the input leaf at that path. -/
theorem data_map_isomorphism (f : Arr → Arr) (t : Data) :
    sameStructure t (dataMap f t) = true ∧
    leaves (dataMap f t) = (leaves t).map f ∧
    (∀ p, getNode (dataMap f t) p = (getNode t p).map (dataMap f)) :=
  ⟨dataMap_sameStructure f t, dataMap_leaves f t, dataMap_getNode f t⟩

/-! ### Claim C6 -/

theorem wfData_dict_parts {es : List (Key × Data)} (h : wfData (.dict es) = true) :
    es ≠ [] ∧ (∀ kv ∈ es, wfData kv.2 = true) := by
  rw [wfData_dict] at h
  simp only [Bool.and_eq_true, List.all_eq_true] at h
  refine ⟨?_, h.2⟩
  intro hnil
  rw [hnil] at h
  simp at h

theorem wfData_seq_parts {xs : List Data} (h : wfData (.seq xs) = true) :
    xs ≠ [] ∧ (∀ x ∈ xs, wfData x = true) := by
  rw [wfData_seq] at h
  simp only [Bool.and_eq_true, List.all_eq_true] at h
  refine ⟨?_, h.2⟩
  intro hnil
  rw [hnil] at h
  simp at h

theorem wfData_tup_parts {xs : List Data} (h : wfData (.tup xs) = true) :
    xs ≠ [] ∧ (∀ x ∈ xs, wfData x = true) := by
  rw [wfData_tup] at h
  simp only [Bool.and_eq_true, List.all_eq_true] at h
  refine ⟨?_, h.2⟩
  intro hnil
  rw [hnil] at h
  simp at h

theorem dataSplit_length_minList (b : Nat) (hb : 1 ≤ b) :
    ∀ t, wfData t = true →
      minList ((leaves t).map (fun a => numSlices b a.length)) =
        some ((dataSplit t b).length) := by
  intro t
  induction t using Data.myInduction with
  | hleaf a =>
    intro _
    rw [leaves_leaf, dataSplit_leaf]
    simp [minList, chunk_length b hb]
  | hdict es ih =>
    intro hwf
    rcases wfData_dict_parts hwf with ⟨hne, hwfc⟩
    rw [leaves_dict, dataSplit_dict, List.length_map, pyZip_length, List.map_flatten,
      List.map_map]
    have hclsne : es.map (fun kv => dataSplit kv.2 b) ≠ [] := by
      simp [hne]
    rw [minList_spec]
    have hmm := minLen_mem (es.map (fun kv => dataSplit kv.2 b)) hclsne
    rw [List.map_map] at hmm
    rcases List.mem_map.mp hmm with ⟨kv, hkv, hlenkv⟩
    have hihkv := ih kv.1 kv.2 (by rw [← Prod.mk.eta (p := kv)] at hkv; exact hkv)
      (hwfc kv hkv)
    rw [minList_spec] at hihkv
    constructor
    · rw [← hlenkv]
      apply List.mem_flatten.mpr
      refine ⟨(leaves kv.2).map (fun a => numSlices b a.length), ?_, ?_⟩
      · exact List.mem_map_of_mem _ hkv
      · simpa using hihkv.1
    · intro y hy
      rcases List.mem_flatten.mp hy with ⟨comp, hcomp, hycomp⟩
      rcases List.mem_map.mp hcomp with ⟨kv2, hkv2, hcomp2⟩
      have hihkv2 := ih kv2.1 kv2.2 (by rw [← Prod.mk.eta (p := kv2)] at hkv2; exact hkv2)
        (hwfc kv2 hkv2)
      rw [minList_spec] at hihkv2
      have h1 : (dataSplit kv2.2 b).length ≤ y := by
        apply hihkv2.2
        rw [← hcomp2] at hycomp
        simpa using hycomp
      have h2 : minLen (es.map (fun kv => dataSplit kv.2 b)) ≤
          (dataSplit kv2.2 b).length :=
        minLen_le _ _ (List.mem_map_of_mem _ hkv2)
      omega
  | hseq xs ih =>
    intro hwf
    rcases wfData_seq_parts hwf with ⟨hne, hwfc⟩
    rw [leaves_seq, dataSplit_seq, List.length_map, pyZip_length, List.map_flatten,
      List.map_map]
    have hclsne : xs.map (fun x => dataSplit x b) ≠ [] := by
      simp [hne]
    rw [minList_spec]
    have hmm := minLen_mem (xs.map (fun x => dataSplit x b)) hclsne
    rw [List.map_map] at hmm
    rcases List.mem_map.mp hmm with ⟨x0, hx0, hlenx0⟩
    have hihx0 := ih x0 hx0 (hwfc x0 hx0)
    rw [minList_spec] at hihx0
    constructor
    · rw [← hlenx0]
      apply List.mem_flatten.mpr
      refine ⟨(leaves x0).map (fun a => numSlices b a.length), ?_, ?_⟩
      · exact List.mem_map_of_mem _ hx0
      · simpa using hihx0.1
    · intro y hy
      rcases List.mem_flatten.mp hy with ⟨comp, hcomp, hycomp⟩
      rcases List.mem_map.mp hcomp with ⟨x2, hx2, hcomp2⟩
      have hihx2 := ih x2 hx2 (hwfc x2 hx2)
      rw [minList_spec] at hihx2
      have h1 : (dataSplit x2 b).length ≤ y := by
        apply hihx2.2
        rw [← hcomp2] at hycomp
        simpa using hycomp
      have h2 : minLen (xs.map (fun x => dataSplit x b)) ≤ (dataSplit x2 b).length :=
        minLen_le _ _ (List.mem_map_of_mem _ hx2)
      omega
  | htup xs ih =>
    intro hwf
    rcases wfData_tup_parts hwf with ⟨hne, hwfc⟩
    rw [leaves_tup, dataSplit_tup, List.length_map, pyZip_length, List.map_flatten,
      List.map_map]
    have hclsne : xs.map (fun x => dataSplit x b) ≠ [] := by
      simp [hne]
    rw [minList_spec]
    have hmm := minLen_mem (xs.map (fun x => dataSplit x b)) hclsne
    rw [List.map_map] at hmm
    rcases List.mem_map.mp hmm with ⟨x0, hx0, hlenx0⟩
    have hihx0 := ih x0 hx0 (hwfc x0 hx0)
    rw [minList_spec] at hihx0
    constructor
    · rw [← hlenx0]
      apply List.mem_flatten.mpr
      refine ⟨(leaves x0).map (fun a => numSlices b a.length), ?_, ?_⟩
      · exact List.mem_map_of_mem _ hx0
      · simpa using hihx0.1
    · intro y hy
      rcases List.mem_flatten.mp hy with ⟨comp, hcomp, hycomp⟩
      rcases List.mem_map.mp hcomp with ⟨x2, hx2, hcomp2⟩
      have hihx2 := ih x2 hx2 (hwfc x2 hx2)
      rw [minList_spec] at hihx2
      have h1 : (dataSplit x2 b).length ≤ y := by
        apply hihx2.2
        rw [← hcomp2] at hycomp
        simpa using hycomp
      have h2 : minLen (xs.map (fun x => dataSplit x b)) ≤ (dataSplit x2 b).length :=
        minLen_le _ _ (List.mem_map_of_mem _ hx2)
      omega

/-- C6: the number of sub-trees `data_split` yields is the minimum over
all leaves of the number of batch slices that leaf yields (the shortest
child generator governs — differing extents are silently truncated),
and each individual leaf's slices all have size `batch_size` except the
last, which is shorter when the extent does not divide evenly — never
padded, and concatenating the slices restores the leaf exactly. -/
theorem data_split_count_and_slices (t : Data) (b : Nat)
    (hb : 1 ≤ b) (hwf : wfData t = true) :
    minList ((leaves t).map (fun a => numSlices b a.length)) =
      some ((dataSplit t b).length) ∧
    ∀ a ∈ leaves t,
      (∀ c ∈ (chunk a b).dropLast, c.length = b) ∧
      (∀ c, (chunk a b).getLast? = some c → 0 < c.length ∧ c.length ≤ b) ∧
      (chunk a b).flatten = a := by
  refine ⟨dataSplit_length_minList b hb t hwf, ?_⟩
  intro a _
  rcases chunk_sizes b hb a with ⟨h1, h2⟩
  exact ⟨h1, h2, chunk_flatten b hb a⟩

/-- Witness for C6: a dict with leaves of extents 5 and 3, batch size 2:
the leaf slice counts are 3 and 2 and the split yields exactly 2
sub-trees (the shorter leaf governs). -/
theorem data_split_count_and_slices_witness :
    (wfData (.dict [(.str "a", .leaf [[1], [2], [3], [4], [5]]),
        (.str "b", .leaf [[6], [7], [8]])]) = true) ∧
    (minList ((leaves (.dict [(.str "a", .leaf [[1], [2], [3], [4], [5]]),
        (.str "b", .leaf [[6], [7], [8]])])).map
        (fun a => numSlices 2 a.length)) =
      some ((dataSplit (.dict [(.str "a", .leaf [[1], [2], [3], [4], [5]]),
        (.str "b", .leaf [[6], [7], [8]])]) 2).length)) ∧
    (∀ a ∈ leaves (.dict [(.str "a", .leaf [[1], [2], [3], [4], [5]]),
        (.str "b", .leaf [[6], [7], [8]])]),
      (∀ c ∈ (chunk a 2).dropLast, c.length = 2) ∧
      (∀ c, (chunk a 2).getLast? = some c → 0 < c.length ∧ c.length ≤ 2) ∧
      (chunk a 2).flatten = a) := by
  have hwf : wfData (.dict [(.str "a", .leaf [[1], [2], [3], [4], [5]]),
      (.str "b", .leaf [[6], [7], [8]])]) = true := by
    simp [wfData_dict, wfData_leaf, distinctKeysB]
  have h := data_split_count_and_slices _ 2 (by omega) hwf
  exact ⟨hwf, h.1, h.2⟩

/-! ### Claim C7 -/

theorem flatKey_default_eq_joinPath : ∀ p : List Key, flatKey defaultFmt p = joinPath p
  | [] => rfl
  | [k] => rfl
  | k :: k2 :: p => rfl

theorem flatKey_cons_of_ne_nil (f : Key → Key → Key) (k : Key) (p : List Key)
    (hp : p ≠ []) : flatKey f (k :: p) = f k (joinPath p) := by
  cases p with
  | nil => exact absurd rfl hp
  | cons k2 p2 => rfl

theorem leafPathsOf_path_ne_nil (t : Data) (hnl : t.isLeaf = false) :
    ∀ pa ∈ leafPathsOf t, pa.1 ≠ [] := by
  intro pa hpa
  cases t with
  | leaf a => simp [Data.isLeaf] at hnl
  | dict es =>
    rw [leafPathsOf_dict] at hpa
    rcases List.mem_flatten.mp hpa with ⟨comp, hcomp, hpacomp⟩
    rcases List.mem_map.mp hcomp with ⟨kv, hkv, hcomp2⟩
    rw [← hcomp2] at hpacomp
    rcases List.mem_map.mp hpacomp with ⟨pa0, hpa0, hpa1⟩
    rw [← hpa1]
    simp
  | seq xs =>
    rw [leafPathsOf_seq] at hpa
    rcases List.mem_flatten.mp hpa with ⟨comp, hcomp, hpacomp⟩
    rcases List.mem_map.mp hcomp with ⟨jx, hjx, hcomp2⟩
    rw [← hcomp2] at hpacomp
    rcases List.mem_map.mp hpacomp with ⟨pa0, hpa0, hpa1⟩
    rw [← hpa1]
    simp
  | tup xs =>
    rw [leafPathsOf_tup] at hpa
    rcases List.mem_flatten.mp hpa with ⟨comp, hcomp, hpacomp⟩
    rcases List.mem_map.mp hcomp with ⟨jx, hjx, hcomp2⟩
    rw [← hcomp2] at hpacomp
    rcases List.mem_map.mp hpacomp with ⟨pa0, hpa0, hpa1⟩
    rw [← hpa1]
    simp

theorem dictInsert_fresh (es : List (Key × Data)) (k : Key) (v : Data)
    (h : k ∉ es.map Prod.fst) : dictInsert es k v = es ++ [(k, v)] := by
  rw [dictInsert]
  have hany : es.any (fun kv => kv.1 == k) = false := by
    rw [← Bool.not_eq_true, List.any_eq_true]
    intro ⟨kv, hkv, hq⟩
    rw [beq_iff_eq] at hq
    exact h (List.mem_map.mpr ⟨kv, hkv, hq⟩)
  rw [hany]
  simp

theorem foldl_dictInsert_append (g : Key × Data → Key × Data) :
    ∀ (inner ret : List (Key × Data)),
      (ret.map Prod.fst ++ inner.map (fun jw => (g jw).1)).Nodup →
      inner.foldl (fun r jw => dictInsert r (g jw).1 (g jw).2) ret =
        ret ++ inner.map g
  | [], ret => by simp
  | jw :: inner, ret => by
    intro hnd
    rw [List.foldl_cons]
    have hfresh : (g jw).1 ∉ ret.map Prod.fst := by
      intro hmem
      rcases List.nodup_append.mp hnd with ⟨_, _, hdisj⟩
      exact hdisj hmem (by simp)
    rw [dictInsert_fresh ret (g jw).1 (g jw).2 hfresh]
    have hnd2 : ((ret ++ [g jw]).map Prod.fst ++
        inner.map (fun jw => (g jw).1)).Nodup := by
      simp only [List.map_append, List.map_cons, List.map_nil] at hnd ⊢
      rw [List.append_assoc]
      simpa [List.append_assoc] using hnd
    have hrec := foldl_dictInsert_append g inner (ret ++ [g jw]) hnd2
    have heta : ((g jw).1, (g jw).2) = g jw := rfl
    rw [heta, hrec]
    simp

theorem isLeaf_iff (t : Data) : t.isLeaf = true ↔ ∃ a, t = .leaf a := by
  cases t <;> simp [Data.isLeaf]

theorem contribution_keys_eq (f : Key → Key → Key) (k : Key) (v : Data) :
    ((leafPathsOf v).map (fun pa => (flatKey f (k :: pa.1), pa.2))).map Prod.fst =
      (leafPathsOf v).map (fun pa => flatKey f (k :: pa.1)) := by
  rw [List.map_map]
  rfl

theorem flattenStep_contribution (f : Key → Key → Key) (ret : List (Key × Data))
    (kv : Key × Data)
    (hIH : kv.2.isLeaf = false →
      flattenDictData defaultFmt kv.2 =
        .dict ((leafPathsOf kv.2).map (fun pa => (flatKey defaultFmt pa.1, pa.2))))
    (hnd : (ret.map Prod.fst ++
      (leafPathsOf kv.2).map (fun pa => flatKey f (kv.1 :: pa.1))).Nodup) :
    flattenStep f ret kv.1 (flattenDictData defaultFmt kv.2) =
      ret ++ (leafPathsOf kv.2).map (fun pa => (flatKey f (kv.1 :: pa.1), pa.2)) := by
  by_cases hL : kv.2.isLeaf = true
  · rcases (isLeaf_iff kv.2).mp hL with ⟨a, ha⟩
    rw [ha] at hnd ⊢
    rw [flattenDictData_leaf, flattenStep]
    rw [leafPathsOf_leaf] at hnd ⊢
    simp only [List.map_cons, List.map_nil]
    have hfresh : kv.1 ∉ ret.map Prod.fst := by
      rcases List.nodup_append.mp hnd with ⟨h1x, h2x, hdisj⟩
      intro hmem
      exact hdisj hmem (by simp [flatKey])
    rw [dictInsert_fresh ret kv.1 (.leaf a) hfresh]
    simp [flatKey]
  · have hnl : kv.2.isLeaf = false := by simpa using hL
    have hIH2 := hIH hnl
    have hcongr : ∀ pa ∈ leafPathsOf kv.2,
        f kv.1 (flatKey defaultFmt pa.1) = flatKey f (kv.1 :: pa.1) := by
      intro pa hpa
      have hne := leafPathsOf_path_ne_nil kv.2 hnl pa hpa
      rw [flatKey_default_eq_joinPath, flatKey_cons_of_ne_nil f kv.1 pa.1 hne]
    have hlist : (((leafPathsOf kv.2).map
          (fun pa => ((flatKey defaultFmt pa.1, pa.2) : Key × Data))).map
        (fun jw => f kv.1 jw.1)) =
        (leafPathsOf kv.2).map (fun pa => flatKey f (kv.1 :: pa.1)) := by
      rw [List.map_map]
      apply List.map_congr_left
      intro pa hpa
      exact hcongr pa hpa
    have hnd2 : (ret.map Prod.fst ++
        (((leafPathsOf kv.2).map
          (fun pa => ((flatKey defaultFmt pa.1, pa.2) : Key × Data))).map
          (fun jw => f kv.1 jw.1))).Nodup := by
      rw [hlist]
      exact hnd
    have h := foldl_dictInsert_append (fun jw => (f kv.1 jw.1, jw.2))
      ((leafPathsOf kv.2).map (fun pa => ((flatKey defaultFmt pa.1, pa.2) : Key × Data)))
      ret hnd2
    have hCeq : (((leafPathsOf kv.2).map
          (fun pa => ((flatKey defaultFmt pa.1, pa.2) : Key × Data))).map
        (fun jw => ((f kv.1 jw.1, jw.2) : Key × Data))) =
        (leafPathsOf kv.2).map (fun pa => (flatKey f (kv.1 :: pa.1), pa.2)) := by
      rw [List.map_map]
      apply List.map_congr_left
      intro pa hpa
      show ((f kv.1 (flatKey defaultFmt pa.1), pa.2) : Key × Data) = _
      rw [hcongr pa hpa]
    calc flattenStep f ret kv.1 (flattenDictData defaultFmt kv.2)
        = ((leafPathsOf kv.2).map
            (fun pa => ((flatKey defaultFmt pa.1, pa.2) : Key × Data))).foldl
            (fun r jw => dictInsert r (f kv.1 jw.1) jw.2) ret := by
          rw [hIH2, flattenStep]
      _ = ret ++ ((leafPathsOf kv.2).map
            (fun pa => ((flatKey defaultFmt pa.1, pa.2) : Key × Data))).map
            (fun jw => ((f kv.1 jw.1, jw.2) : Key × Data)) := h
      _ = ret ++ (leafPathsOf kv.2).map (fun pa => (flatKey f (kv.1 :: pa.1), pa.2)) := by
          rw [hCeq]

theorem foldl_flattenStep_append (f : Key → Key → Key) :
    ∀ (children ret : List (Key × Data)),
      (∀ kv ∈ children, kv.2.isLeaf = false →
        flattenDictData defaultFmt kv.2 =
          .dict ((leafPathsOf kv.2).map (fun pa => (flatKey defaultFmt pa.1, pa.2)))) →
      (ret.map Prod.fst ++ (children.map (fun kv => (leafPathsOf kv.2).map
          (fun pa => flatKey f (kv.1 :: pa.1)))).flatten).Nodup →
      children.foldl
        (fun r kv => flattenStep f r kv.1 (flattenDictData defaultFmt kv.2)) ret =
        ret ++ (children.map (fun kv => (leafPathsOf kv.2).map
          (fun pa => (flatKey f (kv.1 :: pa.1), pa.2)))).flatten
  | [], ret => by
    intro _ _
    simp
  | kv :: children, ret => by
    intro hIHs hnd
    rw [List.foldl_cons]
    simp only [List.map_cons, List.flatten_cons] at hnd
    have hnd1 : (ret.map Prod.fst ++ (leafPathsOf kv.2).map
        (fun pa => flatKey f (kv.1 :: pa.1))).Nodup := by
      rw [← List.append_assoc] at hnd
      exact hnd.of_append_left
    have hstep := flattenStep_contribution f ret kv
      (hIHs kv (by simp)) hnd1
    rw [hstep]
    have hnd2 : ((ret ++ (leafPathsOf kv.2).map
          (fun pa => (flatKey f (kv.1 :: pa.1), pa.2))).map Prod.fst ++
        (children.map (fun kv => (leafPathsOf kv.2).map
          (fun pa => flatKey f (kv.1 :: pa.1)))).flatten).Nodup := by
      rw [List.map_append, contribution_keys_eq, List.append_assoc]
      exact hnd
    have hrec := foldl_flattenStep_append f children
      (ret ++ (leafPathsOf kv.2).map (fun pa => (flatKey f (kv.1 :: pa.1), pa.2)))
      (fun kv2 hkv2 => hIHs kv2 (List.mem_cons_of_mem _ hkv2)) hnd2
    rw [hrec]
    simp [List.append_assoc]

theorem flatten_children_eq (f : Key → Key → Key) (children : List (Key × Data))
    (hIHs : ∀ kv ∈ children, kv.2.isLeaf = false →
      flattenDictData defaultFmt kv.2 =
        .dict ((leafPathsOf kv.2).map (fun pa => (flatKey defaultFmt pa.1, pa.2))))
    (hnd : ((children.map (fun kv => (leafPathsOf kv.2).map
        (fun pa => flatKey f (kv.1 :: pa.1)))).flatten).Nodup) :
    children.foldl
      (fun r kv => flattenStep f r kv.1 (flattenDictData defaultFmt kv.2)) [] =
      (children.map (fun kv => (leafPathsOf kv.2).map
        (fun pa => (flatKey f (kv.1 :: pa.1), pa.2)))).flatten := by
  have h := foldl_flattenStep_append f children [] hIHs (by simpa using hnd)
  simpa using h

theorem flatOk_dict_parts {f : Key → Key → Key} {es : List (Key × Data)}
    (h : flatOk f (.dict es) = true) :
    ((leafPathsOf (.dict es)).map (fun pa => flatKey f pa.1)).Nodup ∧
    ∀ kv ∈ es, flatOk defaultFmt kv.2 = true := by
  rw [flatOk_dict, Bool.and_eq_true, List.all_eq_true] at h
  exact ⟨(distinctKeysB_iff _).mp h.1, h.2⟩

theorem flatOk_seq_parts {f : Key → Key → Key} {xs : List Data}
    (h : flatOk f (.seq xs) = true) :
    ((leafPathsOf (.seq xs)).map (fun pa => flatKey f pa.1)).Nodup ∧
    ∀ x ∈ xs, flatOk defaultFmt x = true := by
  rw [flatOk_seq, Bool.and_eq_true, List.all_eq_true] at h
  exact ⟨(distinctKeysB_iff _).mp h.1, h.2⟩

theorem flatOk_tup_parts {f : Key → Key → Key} {xs : List Data}
    (h : flatOk f (.tup xs) = true) :
    ((leafPathsOf (.tup xs)).map (fun pa => flatKey f pa.1)).Nodup ∧
    ∀ x ∈ xs, flatOk defaultFmt x = true := by
  rw [flatOk_tup, Bool.and_eq_true, List.all_eq_true] at h
  exact ⟨(distinctKeysB_iff _).mp h.1, h.2⟩

theorem leafPathsOf_dict_mapped (es : List (Key × Data)) (F : List Key × Data → β) :
    (leafPathsOf (.dict es)).map F =
      (es.map (fun kv => (leafPathsOf kv.2).map
        (fun pa => F (kv.1 :: pa.1, pa.2)))).flatten := by
  rw [leafPathsOf_dict, List.map_flatten, List.map_map]
  congr 1
  apply List.map_congr_left
  intro kv _
  show ((leafPathsOf kv.2).map (fun pa => (kv.1 :: pa.1, pa.2))).map F = _
  rw [List.map_map]
  rfl

theorem leafPathsOf_seq_mapped (xs : List Data) (F : List Key × Data → β) :
    (leafPathsOf (.seq xs)).map F =
      (xs.enum.map (fun jx => (leafPathsOf jx.2).map
        (fun pa => F (Key.int jx.1 :: pa.1, pa.2)))).flatten := by
  rw [leafPathsOf_seq, List.map_flatten, List.map_map]
  congr 1
  apply List.map_congr_left
  intro jx _
  show ((leafPathsOf jx.2).map (fun pa => (Key.int jx.1 :: pa.1, pa.2))).map F = _
  rw [List.map_map]
  rfl

theorem leafPathsOf_tup_mapped (xs : List Data) (F : List Key × Data → β) :
    (leafPathsOf (.tup xs)).map F =
      (xs.enum.map (fun jx => (leafPathsOf jx.2).map
        (fun pa => F (Key.int jx.1 :: pa.1, pa.2)))).flatten := by
  rw [leafPathsOf_tup, List.map_flatten, List.map_map]
  congr 1
  apply List.map_congr_left
  intro jx _
  show ((leafPathsOf jx.2).map (fun pa => (Key.int jx.1 :: pa.1, pa.2))).map F = _
  rw [List.map_map]
  rfl

theorem flattenDictData_paths :
    ∀ t, ∀ f : Key → Key → Key, flatOk f t = true → t.isLeaf = false →
      flattenDictData f t =
        .dict ((leafPathsOf t).map (fun pa => (flatKey f pa.1, pa.2))) := by
  intro t
  induction t using Data.myInduction with
  | hleaf a =>
    intro f _ hnl
    simp [Data.isLeaf] at hnl
  | hdict es ih =>
    intro f hok _
    rcases flatOk_dict_parts hok with ⟨hnd, hch⟩
    rw [flattenDictData_dict]
    have hIHs : ∀ kv ∈ es, kv.2.isLeaf = false →
        flattenDictData defaultFmt kv.2 =
          .dict ((leafPathsOf kv.2).map (fun pa => (flatKey defaultFmt pa.1, pa.2))) := by
      intro kv hkv hnl
      exact ih kv.1 kv.2 (by rw [← Prod.mk.eta (p := kv)] at hkv; exact hkv)
        defaultFmt (hch kv hkv) hnl
    have hnd2 : ((es.map (fun kv => (leafPathsOf kv.2).map
        (fun pa => flatKey f (kv.1 :: pa.1)))).flatten).Nodup := by
      rw [leafPathsOf_dict_mapped es (fun pa => flatKey f pa.1)] at hnd
      exact hnd
    rw [flatten_children_eq f es hIHs hnd2]
    congr 1
    exact (leafPathsOf_dict_mapped es (fun pa => (flatKey f pa.1, pa.2))).symm
  | hseq xs ih =>
    intro f hok _
    rcases flatOk_seq_parts hok with ⟨hnd, hch⟩
    rw [flattenDictData_seq]
    have hIHs : ∀ kv ∈ xs.enum.map (fun jx => ((Key.int jx.1 : Key), jx.2)),
        kv.2.isLeaf = false →
        flattenDictData defaultFmt kv.2 =
          .dict ((leafPathsOf kv.2).map (fun pa => (flatKey defaultFmt pa.1, pa.2))) := by
      intro kv hkv hnl
      rcases List.mem_map.mp hkv with ⟨jx, hjx, hkv2⟩
      obtain ⟨j, x⟩ := jx
      have hx := (List.mem_enum hjx).2
      have hxlt := (List.mem_enum hjx).1
      have hxmem : x ∈ xs := by rw [hx]; exact List.getElem_mem hxlt
      rw [← hkv2]
      exact ih x hxmem defaultFmt (hch x hxmem) (by rw [← hkv2] at hnl; exact hnl)
    have hnd2 : (((xs.enum.map (fun jx => ((Key.int jx.1 : Key), jx.2))).map
        (fun kv => (leafPathsOf kv.2).map
          (fun pa => flatKey f (kv.1 :: pa.1)))).flatten).Nodup := by
      rw [leafPathsOf_seq_mapped xs (fun pa => flatKey f pa.1)] at hnd
      rw [List.map_map]
      exact hnd
    have hfold : xs.enum.foldl
        (fun ret jx => flattenStep f ret (.int jx.1) (flattenDictData defaultFmt jx.2))
        [] =
        (xs.enum.map (fun jx => ((Key.int jx.1 : Key), jx.2))).foldl
          (fun r kv => flattenStep f r kv.1 (flattenDictData defaultFmt kv.2)) [] := by
      exact (List.foldl_map (fun jx : Nat × Data => ((Key.int jx.1 : Key), jx.2))
        (fun r kv => flattenStep f r kv.1 (flattenDictData defaultFmt kv.2))
        xs.enum []).symm
    rw [hfold, flatten_children_eq f _ hIHs hnd2]
    congr 1
    rw [leafPathsOf_seq_mapped xs (fun pa => (flatKey f pa.1, pa.2)), List.map_map]
    rfl
  | htup xs ih =>
    intro f hok _
    rcases flatOk_tup_parts hok with ⟨hnd, hch⟩
    rw [flattenDictData_tup]
    have hIHs : ∀ kv ∈ xs.enum.map (fun jx => ((Key.int jx.1 : Key), jx.2)),
        kv.2.isLeaf = false →
        flattenDictData defaultFmt kv.2 =
          .dict ((leafPathsOf kv.2).map (fun pa => (flatKey defaultFmt pa.1, pa.2))) := by
      intro kv hkv hnl
      rcases List.mem_map.mp hkv with ⟨jx, hjx, hkv2⟩
      obtain ⟨j, x⟩ := jx
      have hx := (List.mem_enum hjx).2
      have hxlt := (List.mem_enum hjx).1
      have hxmem : x ∈ xs := by rw [hx]; exact List.getElem_mem hxlt
      rw [← hkv2]
      exact ih x hxmem defaultFmt (hch x hxmem) (by rw [← hkv2] at hnl; exact hnl)
    have hnd2 : (((xs.enum.map (fun jx => ((Key.int jx.1 : Key), jx.2))).map
        (fun kv => (leafPathsOf kv.2).map
          (fun pa => flatKey f (kv.1 :: pa.1)))).flatten).Nodup := by
      rw [leafPathsOf_tup_mapped xs (fun pa => flatKey f pa.1)] at hnd
      rw [List.map_map]
      exact hnd
    have hfold : xs.enum.foldl
        (fun ret jx => flattenStep f ret (.int jx.1) (flattenDictData defaultFmt jx.2))
        [] =
        (xs.enum.map (fun jx => ((Key.int jx.1 : Key), jx.2))).foldl
          (fun r kv => flattenStep f r kv.1 (flattenDictData defaultFmt kv.2)) [] := by
      exact (List.foldl_map (fun jx : Nat × Data => ((Key.int jx.1 : Key), jx.2))
        (fun r kv => flattenStep f r kv.1 (flattenDictData defaultFmt kv.2))
        xs.enum []).symm
    rw [hfold, flatten_children_eq f _ hIHs hnd2]
    congr 1
    rw [leafPathsOf_tup_mapped xs (fun pa => (flatKey f pa.1, pa.2)), List.map_map]
    rfl

/-- Counterexample to C7: with a caller-supplied formatter joining by
"-", a depth-3 dict flattens to the single key "A-B/p": the inner join
used the default "/" because the recursive call drops `fun`, so not all
composite keys are produced by the caller-supplied formatter (which
would give "A-B-p"). -/
theorem flatten_formatter_counterexample :
    flattenDictData (fun i j => .str (i.pyStr ++ "-" ++ j.pyStr))
        (.dict [(.str "A", .dict [(.str "B", .dict [(.str "p", .leaf [[1]])])])]) =
      .dict [(.str "A-B/p", .leaf [[1]])] ∧
    (Data.dict [(.str "A-B/p", .leaf [[1]])] ≠
      Data.dict [(.str "A-B-p", .leaf [[1]])]) := by
  refine ⟨?_, by decide⟩
  simp only [flattenDictData_dict, flattenDictData_leaf, List.foldl_cons,
    List.foldl_nil, flattenStep, dictInsert, defaultFmt, Key.pyStr]
  decide

theorem leafPathsOf_values_leaf : ∀ t, ∀ pa ∈ leafPathsOf t, pa.2.isLeaf = true := by
  intro t
  induction t using Data.myInduction with
  | hleaf a =>
    intro pa hpa
    rw [leafPathsOf_leaf] at hpa
    rcases List.mem_cons.mp hpa with h | h
    · rw [h]; rfl
    · simp at h
  | hdict es ih =>
    intro pa hpa
    rw [leafPathsOf_dict] at hpa
    rcases List.mem_flatten.mp hpa with ⟨comp, hcomp, hpacomp⟩
    rcases List.mem_map.mp hcomp with ⟨kv, hkv, hcomp2⟩
    rw [← hcomp2] at hpacomp
    rcases List.mem_map.mp hpacomp with ⟨pa0, hpa0, hpa1⟩
    rw [← hpa1]
    exact ih kv.1 kv.2 (by rw [← Prod.mk.eta (p := kv)] at hkv; exact hkv) pa0 hpa0
  | hseq xs ih =>
    intro pa hpa
    rw [leafPathsOf_seq] at hpa
    rcases List.mem_flatten.mp hpa with ⟨comp, hcomp, hpacomp⟩
    rcases List.mem_map.mp hcomp with ⟨jx, hjx, hcomp2⟩
    rw [← hcomp2] at hpacomp
    rcases List.mem_map.mp hpacomp with ⟨pa0, hpa0, hpa1⟩
    rw [← hpa1]
    obtain ⟨j, x⟩ := jx
    have hx := (List.mem_enum hjx).2
    have hxlt := (List.mem_enum hjx).1
    have hxmem : x ∈ xs := by rw [hx]; exact List.getElem_mem hxlt
    exact ih x hxmem pa0 hpa0
  | htup xs ih =>
    intro pa hpa
    rw [leafPathsOf_tup] at hpa
    rcases List.mem_flatten.mp hpa with ⟨comp, hcomp, hpacomp⟩
    rcases List.mem_map.mp hcomp with ⟨jx, hjx, hcomp2⟩
    rw [← hcomp2] at hpacomp
    rcases List.mem_map.mp hpacomp with ⟨pa0, hpa0, hpa1⟩
    rw [← hpa1]
    obtain ⟨j, x⟩ := jx
    have hx := (List.mem_enum hjx).2
    have hxlt := (List.mem_enum hjx).1
    have hxmem : x ∈ xs := by rw [hx]; exact List.getElem_mem hxlt
    exact ih x hxmem pa0 hpa0

/-- C7 amended: on a container tree whose flattened keys do not
collide, `flatten_dict_data` returns the single-level mapping whose
entries are exactly the tree's root-to-leaf paths with their leaves: a
length-one path keeps its original key unformatted, and a longer path
gets the caller-supplied formatter applied only to the TOP-level join,
all deeper joins using the default `"parent/child"` formatter (the
recursive call drops `fun`); every value of the result is a leaf.  With
the default formatter every composite key is the full `/`-joined path,
giving the `{"A/p": 1, "A/m": 2}` behaviour of the example. -/
theorem flatten_dict_data_key_structure (t : Data) (f : Key → Key → Key)
    (hok : flatOk f t = true) (hnl : t.isLeaf = false) :
    flattenDictData f t =
      .dict ((leafPathsOf t).map (fun pa => (flatKey f pa.1, pa.2))) ∧
    (∀ pa ∈ leafPathsOf t, pa.2.isLeaf = true) :=
  ⟨flattenDictData_paths t f hok hnl, leafPathsOf_values_leaf t⟩

/-- Witness for the amended C7: the tree `{"A": {"p": 1, "m": 2}}` with
the default formatter flattens to `{"A/p": 1, "A/m": 2}` — the keys are
the `/`-joined paths and the leaf values are preserved. -/
theorem flatten_dict_data_key_structure_witness :
    (flatOk defaultFmt (.dict [(.str "A", .dict [(.str "p", .leaf [[1]]),
        (.str "m", .leaf [[2]])])]) = true) ∧
    (flattenDictData defaultFmt (.dict [(.str "A", .dict [(.str "p", .leaf [[1]]),
        (.str "m", .leaf [[2]])])]) =
      .dict ((leafPathsOf (.dict [(.str "A", .dict [(.str "p", .leaf [[1]]),
        (.str "m", .leaf [[2]])])])).map (fun pa => (flatKey defaultFmt pa.1, pa.2)))) ∧
    (flattenDictData defaultFmt (.dict [(.str "A", .dict [(.str "p", .leaf [[1]]),
        (.str "m", .leaf [[2]])])]) =
      .dict [(.str "A/p", .leaf [[1]]), (.str "A/m", .leaf [[2]])]) := by
  have hok : flatOk defaultFmt (.dict [(.str "A", .dict [(.str "p", .leaf [[1]]),
      (.str "m", .leaf [[2]])])]) = true := by
    simp only [flatOk_dict, flatOk_leaf, leafPathsOf_dict, leafPathsOf_leaf,
      List.map_cons, List.map_nil, List.flatten, List.all_cons, List.all_nil,
      distinctKeysB, flatKey, defaultFmt, Key.pyStr]
    decide
  have h := flatten_dict_data_key_structure _ defaultFmt hok (by rfl)
  refine ⟨hok, h.1, ?_⟩
  rw [h.1]
  simp only [leafPathsOf_dict, leafPathsOf_leaf, List.map_cons, List.map_nil,
    List.flatten, flatKey, defaultFmt, Key.pyStr]
  decide

/-! ### Claim C1 -/

theorem numSlices_pos (b N : Nat) (hb : 1 ≤ b) (hN : 1 ≤ N) : 1 ≤ numSlices b N := by
  unfold numSlices
  have h1 : b ≤ N + b - 1 := by omega
  have h2 : b / b ≤ (N + b - 1) / b := Nat.div_le_div_right h1
  rw [Nat.div_self (by omega : 0 < b)] at h2
  exact h2

theorem uniformExtent_leaf_len {N : Nat} {a : Arr}
    (h : uniformExtent N (.leaf a) = true) : a.length = N := by
  rw [uniformExtent_leaf] at h
  exact beq_iff_eq.mp h

theorem uniformExtent_dict_child {N : Nat} {es : List (Key × Data)}
    (h : uniformExtent N (.dict es) = true) :
    ∀ kv ∈ es, uniformExtent N kv.2 = true := by
  rw [uniformExtent_dict] at h
  exact fun kv hkv => List.all_eq_true.mp h kv hkv

theorem uniformExtent_seq_child {N : Nat} {xs : List Data}
    (h : uniformExtent N (.seq xs) = true) :
    ∀ x ∈ xs, uniformExtent N x = true := by
  rw [uniformExtent_seq] at h
  exact fun x hx => List.all_eq_true.mp h x hx

theorem uniformExtent_tup_child {N : Nat} {xs : List Data}
    (h : uniformExtent N (.tup xs) = true) :
    ∀ x ∈ xs, uniformExtent N x = true := by
  rw [uniformExtent_tup] at h
  exact fun x hx => List.all_eq_true.mp h x hx

theorem wfData_dict_nodup {es : List (Key × Data)}
    (h : wfData (.dict es) = true) : (es.map Prod.fst).Nodup := by
  rw [wfData_dict] at h
  simp only [Bool.and_eq_true] at h
  exact (distinctKeysB_iff _).mp h.1.2

theorem leaves_ne_nil : ∀ t, wfData t = true → leaves t ≠ [] := by
  intro t
  induction t using Data.myInduction with
  | hleaf a => intro _; rw [leaves_leaf]; simp
  | hdict es ih =>
    intro hwf hnil
    rcases wfData_dict_parts hwf with ⟨hne, hwfc⟩
    rw [leaves_dict, List.flatten_eq_nil_iff] at hnil
    cases es with
    | nil => exact hne rfl
    | cons kv es2 =>
      have h1 := hnil (leaves kv.2) (by simp)
      exact ih kv.1 kv.2 (by simp) (hwfc kv (by simp)) h1
  | hseq xs ih =>
    intro hwf hnil
    rcases wfData_seq_parts hwf with ⟨hne, hwfc⟩
    rw [leaves_seq, List.flatten_eq_nil_iff] at hnil
    cases xs with
    | nil => exact hne rfl
    | cons x xs2 =>
      have h1 := hnil (leaves x) (by simp)
      exact ih x (by simp) (hwfc x (by simp)) h1
  | htup xs ih =>
    intro hwf hnil
    rcases wfData_tup_parts hwf with ⟨hne, hwfc⟩
    rw [leaves_tup, List.flatten_eq_nil_iff] at hnil
    cases xs with
    | nil => exact hne rfl
    | cons x xs2 =>
      have h1 := hnil (leaves x) (by simp)
      exact ih x (by simp) (hwfc x (by simp)) h1

theorem uniformExtent_all_leaves (N : Nat) :
    ∀ t, uniformExtent N t = true → ∀ a ∈ leaves t, a.length = N := by
  intro t
  induction t using Data.myInduction with
  | hleaf a0 =>
    intro hext a ha
    rw [leaves_leaf, List.mem_singleton] at ha
    subst ha
    exact uniformExtent_leaf_len hext
  | hdict es ih =>
    intro hext a ha
    rw [leaves_dict] at ha
    rcases List.mem_flatten.mp ha with ⟨comp, hcomp, hacomp⟩
    rcases List.mem_map.mp hcomp with ⟨kv, hkv, hcompeq⟩
    subst hcompeq
    exact ih kv.1 kv.2 (by simpa using hkv) (uniformExtent_dict_child hext kv hkv) a hacomp
  | hseq xs ih =>
    intro hext a ha
    rw [leaves_seq] at ha
    rcases List.mem_flatten.mp ha with ⟨comp, hcomp, hacomp⟩
    rcases List.mem_map.mp hcomp with ⟨x, hx, hcompeq⟩
    subst hcompeq
    exact ih x hx (uniformExtent_seq_child hext x hx) a hacomp
  | htup xs ih =>
    intro hext a ha
    rw [leaves_tup] at ha
    rcases List.mem_flatten.mp ha with ⟨comp, hcomp, hacomp⟩
    rcases List.mem_map.mp hcomp with ⟨x, hx, hcompeq⟩
    subst hcompeq
    exact ih x hx (uniformExtent_tup_child hext x hx) a hacomp

theorem dataSplit_length_uniform (b N : Nat) (hb : 1 ≤ b) (t : Data)
    (hwf : wfData t = true) (hext : uniformExtent N t = true) :
    (dataSplit t b).length = numSlices b N := by
  have h1 := dataSplit_length_minList b hb t hwf
  have h2 : minList ((leaves t).map (fun a => numSlices b a.length)) =
      some (numSlices b N) := by
    rw [minList_spec]
    constructor
    · have hne := leaves_ne_nil t hwf
      have hex : ∃ a, a ∈ leaves t := by
        cases hl : leaves t with
        | nil => exact absurd hl hne
        | cons a0 rest2 => exact ⟨a0, by simp⟩
      rcases hex with ⟨a0, ha0⟩
      apply List.mem_map.mpr
      exact ⟨a0, ha0, by rw [uniformExtent_all_leaves N t hext a0 ha0]⟩
    · intro x hx
      rcases List.mem_map.mp hx with ⟨a, ha, hxeq⟩
      rw [← hxeq, uniformExtent_all_leaves N t hext a ha]
  rw [h1] at h2
  exact Option.some_inj.mp h2

theorem splitColumn (b N : Nat) (hb : 1 ≤ b) (hN : 1 ≤ N) (x : Data)
    (hwf : wfData x = true) (hext : uniformExtent N x = true) :
    (dataSplit x b).getD 0 default ::
      (List.range (numSlices b N - 1)).map
        (fun q => (dataSplit x b).getD (q + 1) default) = dataSplit x b := by
  have hlen : (dataSplit x b).length = numSlices b N :=
    dataSplit_length_uniform b N hb x hwf hext
  have hm1 : 1 ≤ numSlices b N := numSlices_pos b N hb hN
  apply List.ext_getElem
  · simp only [List.length_cons, List.length_map, List.length_range, hlen]
    omega
  · intro i h1 h2
    cases i with
    | zero =>
      simp only [List.getElem_cons_zero]
      rw [List.getD_eq_getElem _ _ (by omega)]
    | succ q =>
      simp only [List.getElem_cons_succ, List.getElem_map, List.getElem_range]
      rw [List.getD_eq_getElem _ _ (by omega)]

theorem splitMergeAux (b N : Nat) (hb : 1 ≤ b) (hbN : b ≤ N) :
    ∀ t, wfData t = true → uniformExtent N t = true →
      dataMergeAll (dataSplit t b) 0 = .ok t := by
  have hN : 1 ≤ N := le_trans hb hbN
  have hm1 : 1 ≤ numSlices b N := numSlices_pos b N hb hN
  intro t
  induction t using Data.myInduction with
  | hleaf a =>
    intro _ hext
    have hlen : a.length = N := uniformExtent_leaf_len hext
    have hane : a ≠ [] := by
      intro h0
      rw [h0] at hlen
      simp only [List.length_nil] at hlen
      omega
    rw [dataSplit_leaf]
    cases hch : chunk a b with
    | nil => exact absurd ((chunk_eq_nil_iff b hb a).mp hch) hane
    | cons c0 cs =>
      simp only [List.map_cons, dataMergeAll]
      rw [dataMergeL_leaf]
      simp only [mapOption_map_section asLeaf Data.leaf (fun y => rfl), concatArr_zero]
      have hfl : (c0 :: cs).flatten = a := by
        rw [← hch]
        exact chunk_flatten b hb a
      rw [hfl]
      rfl
  | hdict es ih =>
    intro hwf hext
    rcases wfData_dict_parts hwf with ⟨hne, hwfc⟩
    have hnd : (es.map Prod.fst).Nodup := wfData_dict_nodup hwf
    have hextc : ∀ kv ∈ es, uniformExtent N kv.2 = true := uniformExtent_dict_child hext
    have hlens : ∀ kv ∈ es, (dataSplit kv.2 b).length = numSlices b N := fun kv hkv =>
      dataSplit_length_uniform b N hb kv.2 (hwfc kv hkv) (hextc kv hkv)
    rw [dataSplit_dict]
    have hclsne : es.map (fun kv => dataSplit kv.2 b) ≠ [] := by simp [hne]
    have hminlen : minLen (es.map (fun kv => dataSplit kv.2 b)) = numSlices b N := by
      apply minLen_const _ _ hclsne
      intro l hl
      rcases List.mem_map.mp hl with ⟨kv, hkv, hleq⟩
      rw [← hleq]
      exact hlens kv hkv
    have hcol : ∀ j, (es.map (fun kv => dataSplit kv.2 b)).map (fun l => l.getD j default) =
        es.map (fun kv => (dataSplit kv.2 b).getD j default) := by
      intro j
      apply List.ext_getElem
      · simp
      · intro i2 hh1 hh2
        simp [List.getElem_map]
    have hzip : pyZip (es.map (fun kv => dataSplit kv.2 b)) =
        (List.range (numSlices b N)).map
          (fun j => es.map (fun kv => (dataSplit kv.2 b).getD j default)) := by
      simp only [pyZip]
      rw [hminlen]
      exact List.map_congr_left (fun j _ => hcol j)
    have hbatches : (pyZip (es.map (fun kv => dataSplit kv.2 b))).map
          (fun col => Data.dict ((es.map Prod.fst).zip col)) =
        Data.dict ((es.map Prod.fst).zip
            (es.map (fun kv => (dataSplit kv.2 b).getD 0 default))) ::
          (List.range (numSlices b N - 1)).map
            (fun q => Data.dict ((es.map Prod.fst).zip
              (es.map (fun kv2 => (dataSplit kv2.2 b).getD (q + 1) default)))) := by
      rw [hzip]
      apply List.ext_getElem
      · simp only [List.length_map, List.length_range, List.length_cons]
        omega
      · intro i hi1 hi2
        cases i with
        | zero => simp only [List.getElem_map, List.getElem_range, List.getElem_cons_zero]
        | succ q =>
          simp only [List.getElem_map, List.getElem_range, List.getElem_cons_succ]
    rw [hbatches]
    simp only [dataMergeAll]
    rw [dataMergeL_dict]
    have hrest : (List.range (numSlices b N - 1)).map
          (fun q => Data.dict ((es.map Prod.fst).zip
            (es.map (fun kv2 => (dataSplit kv2.2 b).getD (q + 1) default)))) =
        ((List.range (numSlices b N - 1)).map
          (fun q => (es.map Prod.fst).zip
            (es.map (fun kv2 => (dataSplit kv2.2 b).getD (q + 1) default)))).map Data.dict := by
      apply List.ext_getElem
      · simp
      · intro i hh1 hh2
        simp [List.getElem_map]
    simp only [hrest, mapOption_map_section asDictL Data.dict (fun d => rfl)]
    have hfilter : ((es.map Prod.fst).zip
          (es.map (fun kv => (dataSplit kv.2 b).getD 0 default))).filter
          (fun kv => ((List.range (numSlices b N - 1)).map
            (fun q => (es.map Prod.fst).zip
              (es.map (fun kv2 => (dataSplit kv2.2 b).getD (q + 1) default)))).all
            (fun d => d.any (fun kv2 => kv2.1 == kv.1))) =
        (es.map Prod.fst).zip (es.map (fun kv => (dataSplit kv.2 b).getD 0 default)) := by
      apply List.filter_eq_self.mpr
      intro kv hkv
      obtain ⟨k1, v1⟩ := kv
      have hk1 : k1 ∈ es.map Prod.fst := (List.of_mem_zip hkv).1
      simp only [List.all_eq_true]
      intro d hd
      rcases List.mem_map.mp hd with ⟨q, hq, hdeq⟩
      simp only [← hdeq]
      apply (any_fst_beq_iff _ _).mpr
      rw [List.map_fst_zip _ _ (by simp)]
      exact hk1
    rw [hfilter]
    have hcorr : ∀ kv ∈ (es.map Prod.fst).zip
          (es.map (fun kv => (dataSplit kv.2 b).getD 0 default)),
        (match mapOption (fun d => lookupKey d kv.1)
            ((List.range (numSlices b N - 1)).map
              (fun q => (es.map Prod.fst).zip
                (es.map (fun kv2 => (dataSplit kv2.2 b).getD (q + 1) default)))) with
          | none => .error .keyError
          | some vs =>
            (dataMergeL kv.2 vs 0).map (fun m => (kv.1, m)) :
            Except Err (Key × Data)) =
        .ok (kv.1, (lookupKey es kv.1).getD default) := by
      intro kv hkv
      obtain ⟨k1, v1⟩ := kv
      rcases List.mem_iff_getElem.mp hkv with ⟨i, hi, hkveq⟩
      rw [List.getElem_zip] at hkveq
      have hil : i < es.length := by
        simp only [List.length_zip, List.length_map] at hi
        omega
      have hk1e : k1 = es[i].1 := by
        have hpr := congrArg Prod.fst hkveq
        simpa using hpr.symm
      have hv1 : v1 = (dataSplit es[i].2 b).getD 0 default := by
        have hpr := congrArg Prod.snd hkveq
        simpa using hpr.symm
      have hwfi : wfData es[i].2 = true := hwfc es[i] (List.getElem_mem hil)
      have hexti : uniformExtent N es[i].2 = true := hextc es[i] (List.getElem_mem hil)
      have hlook : ∀ d ∈ (List.range (numSlices b N - 1)).map
            (fun q => (es.map Prod.fst).zip
              (es.map (fun kv2 => (dataSplit kv2.2 b).getD (q + 1) default))),
          lookupKey d k1 = some ((lookupKey d k1).getD default) := by
        intro d hd
        rcases List.mem_map.mp hd with ⟨q, hq, hdeq⟩
        have hlq := lookupKey_zip_getElem (es.map Prod.fst)
            (es.map (fun kv2 => (dataSplit kv2.2 b).getD (q + 1) default)) i hnd
            (by simp only [List.length_map]; exact hil)
            (by simp only [List.length_map]; exact hil)
        rw [List.getElem_map, List.getElem_map] at hlq
        simp only [← hdeq]
        rw [hk1e, hlq]
        rfl
      have hvs := mapOption_some_of_forall (fun d => lookupKey d k1)
          (fun d => (lookupKey d k1).getD default) _ hlook
      have hvs2 : ((List.range (numSlices b N - 1)).map
            (fun q => (es.map Prod.fst).zip
              (es.map (fun kv2 => (dataSplit kv2.2 b).getD (q + 1) default)))).map
          (fun d => (lookupKey d k1).getD default) =
        (List.range (numSlices b N - 1)).map
          (fun q => (dataSplit es[i].2 b).getD (q + 1) default) := by
        apply List.ext_getElem
        · simp
        · intro q hq1 hq2
          simp only [List.getElem_map, List.getElem_range]
          have hlq := lookupKey_zip_getElem (es.map Prod.fst)
              (es.map (fun kv2 => (dataSplit kv2.2 b).getD (q + 1) default)) i hnd
              (by simp only [List.length_map]; exact hil)
              (by simp only [List.length_map]; exact hil)
          rw [List.getElem_map, List.getElem_map] at hlq
          rw [hk1e, hlq]
          simp
      have hsplit : v1 :: (List.range (numSlices b N - 1)).map
            (fun q => (dataSplit es[i].2 b).getD (q + 1) default) =
          dataSplit es[i].2 b := by
        rw [hv1]
        exact splitColumn b N hb hN es[i].2 hwfi hexti
      have h0 : dataMergeAll (v1 :: (List.range (numSlices b N - 1)).map
            (fun q => (dataSplit es[i].2 b).getD (q + 1) default)) 0 =
          dataMergeL v1 ((List.range (numSlices b N - 1)).map
            (fun q => (dataSplit es[i].2 b).getD (q + 1) default)) 0 := rfl
      have hmerge : dataMergeL v1 ((List.range (numSlices b N - 1)).map
            (fun q => (dataSplit es[i].2 b).getD (q + 1) default)) 0 = .ok (es[i].2) := by
        rw [← h0, hsplit]
        exact ih es[i].1 es[i].2 (by simpa using List.getElem_mem hil) hwfi hexti
      have hlkes : lookupKey es k1 = some (es[i].2) := by
        rw [hk1e]
        exact lookupKey_eq_of_mem_nodup (by simpa using List.getElem_mem hil) hnd
      show (match mapOption (fun d => lookupKey d k1)
            ((List.range (numSlices b N - 1)).map
              (fun q => (es.map Prod.fst).zip
                (es.map (fun kv2 => (dataSplit kv2.2 b).getD (q + 1) default)))) with
          | none => .error .keyError
          | some vs =>
            (dataMergeL v1 vs 0).map (fun m => (k1, m)) :
            Except Err (Key × Data)) =
        .ok (k1, (lookupKey es k1).getD default)
      simp only [hvs]
      rw [hvs2, hmerge, hlkes]
      rfl
    have hmex := mapExcept_ok_of_forall _ _ _ hcorr
    simp only [hmex]
    have hentries : ((es.map Prod.fst).zip
          (es.map (fun kv => (dataSplit kv.2 b).getD 0 default))).map
        (fun kv => (kv.1, (lookupKey es kv.1).getD default)) = es := by
      apply List.ext_getElem
      · simp
      · intro i hi1 hi2
        simp only [List.getElem_map, List.getElem_zip]
        have hlk : lookupKey es (es[i].1) = some (es[i].2) :=
          lookupKey_eq_of_mem_nodup (by simpa using List.getElem_mem hi2) hnd
        rw [hlk, Option.getD_some]
    rw [hentries]
  | hseq xs ih =>
    intro hwf hext
    rcases wfData_seq_parts hwf with ⟨hne, hwfc⟩
    have hextc : ∀ x ∈ xs, uniformExtent N x = true := uniformExtent_seq_child hext
    have hlens : ∀ x ∈ xs, (dataSplit x b).length = numSlices b N := fun x hx =>
      dataSplit_length_uniform b N hb x (hwfc x hx) (hextc x hx)
    rw [dataSplit_seq]
    have hclsne : xs.map (fun x => dataSplit x b) ≠ [] := by simp [hne]
    have hminlen : minLen (xs.map (fun x => dataSplit x b)) = numSlices b N := by
      apply minLen_const _ _ hclsne
      intro l hl
      rcases List.mem_map.mp hl with ⟨x, hx, hleq⟩
      rw [← hleq]
      exact hlens x hx
    have hcol : ∀ j, (xs.map (fun x => dataSplit x b)).map (fun l => l.getD j default) =
        xs.map (fun x => (dataSplit x b).getD j default) := by
      intro j
      apply List.ext_getElem
      · simp
      · intro i2 hh1 hh2
        simp [List.getElem_map]
    have hzip : pyZip (xs.map (fun x => dataSplit x b)) =
        (List.range (numSlices b N)).map
          (fun j => xs.map (fun x => (dataSplit x b).getD j default)) := by
      simp only [pyZip]
      rw [hminlen]
      exact List.map_congr_left (fun j _ => hcol j)
    have hbatches : (pyZip (xs.map (fun x => dataSplit x b))).map Data.seq =
        Data.seq (xs.map (fun x => (dataSplit x b).getD 0 default)) ::
          (List.range (numSlices b N - 1)).map
            (fun q => Data.seq (xs.map (fun x => (dataSplit x b).getD (q + 1) default))) := by
      rw [hzip]
      apply List.ext_getElem
      · simp only [List.length_map, List.length_range, List.length_cons]
        omega
      · intro i hi1 hi2
        cases i with
        | zero => simp only [List.getElem_map, List.getElem_range, List.getElem_cons_zero]
        | succ q =>
          simp only [List.getElem_map, List.getElem_range, List.getElem_cons_succ]
    rw [hbatches]
    simp only [dataMergeAll]
    rw [dataMergeL_seq]
    have hrest : (List.range (numSlices b N - 1)).map
          (fun q => Data.seq (xs.map (fun x => (dataSplit x b).getD (q + 1) default))) =
        ((List.range (numSlices b N - 1)).map
          (fun q => xs.map (fun x => (dataSplit x b).getD (q + 1) default))).map Data.seq := by
      apply List.ext_getElem
      · simp
      · intro i hh1 hh2
        simp [List.getElem_map]
    simp only [hrest, mapOption_map_section asSeqL Data.seq (fun l => rfl)]
    have hfold : ((List.range (numSlices b N - 1)).map
          (fun q => xs.map (fun x => (dataSplit x b).getD (q + 1) default))).foldl
        (fun a l => min a l.length)
        (xs.map (fun x => (dataSplit x b).getD 0 default)).length = xs.length := by
      have h1 : ((List.range (numSlices b N - 1)).map
            (fun q => xs.map (fun x => (dataSplit x b).getD (q + 1) default))).foldl
          (fun a l => min a l.length)
          (xs.map (fun x => (dataSplit x b).getD 0 default)).length =
          minLen ((xs.map (fun x => (dataSplit x b).getD 0 default)) ::
            (List.range (numSlices b N - 1)).map
              (fun q => xs.map (fun x => (dataSplit x b).getD (q + 1) default))) := rfl
      rw [h1]
      apply minLen_const
      · simp
      · intro l hl
        rcases List.mem_cons.mp hl with h | h
        · rw [h]
          simp
        · rcases List.mem_map.mp h with ⟨q, hq, hleq⟩
          rw [← hleq]
          simp
    rw [hfold]
    have hcorr2 : ∀ p ∈ (List.range xs.length).zip
          (xs.map (fun x => (dataSplit x b).getD 0 default)),
        dataMergeL p.2 (((List.range (numSlices b N - 1)).map
            (fun q => xs.map (fun x => (dataSplit x b).getD (q + 1) default))).map
          (fun l => l.getD p.1 default)) 0 = .ok (xs.getD p.1 default) := by
      intro p hp
      obtain ⟨j0, v1⟩ := p
      rcases List.mem_iff_getElem.mp hp with ⟨i, hi, hpeq⟩
      rw [List.getElem_zip] at hpeq
      have hil : i < xs.length := by
        simp only [List.length_zip, List.length_range, List.length_map] at hi
        omega
      have hj0 : i = j0 := by
        have hpr := congrArg Prod.fst hpeq
        simpa using hpr
      have hv1 : v1 = (dataSplit xs[i] b).getD 0 default := by
        have hpr := congrArg Prod.snd hpeq
        simpa using hpr.symm
      subst hj0
      show dataMergeL v1 (((List.range (numSlices b N - 1)).map
            (fun q => xs.map (fun x => (dataSplit x b).getD (q + 1) default))).map
          (fun l => l.getD i default)) 0 = .ok (xs.getD i default)
      have hcols : ((List.range (numSlices b N - 1)).map
            (fun q => xs.map (fun x => (dataSplit x b).getD (q + 1) default))).map
          (fun l => l.getD i default) =
        (List.range (numSlices b N - 1)).map
          (fun q => (dataSplit xs[i] b).getD (q + 1) default) := by
        apply List.ext_getElem
        · simp
        · intro q hq1 hq2
          simp only [List.getElem_map, List.getElem_range]
          rw [List.getD_eq_getElem _ _ (by simpa using hil), List.getElem_map]
      rw [hcols]
      have hwfi := hwfc xs[i] (List.getElem_mem hil)
      have hexti := hextc xs[i] (List.getElem_mem hil)
      have hsplit : v1 :: (List.range (numSlices b N - 1)).map
            (fun q => (dataSplit xs[i] b).getD (q + 1) default) =
          dataSplit xs[i] b := by
        rw [hv1]
        exact splitColumn b N hb hN xs[i] hwfi hexti
      have h0 : dataMergeAll (v1 :: (List.range (numSlices b N - 1)).map
            (fun q => (dataSplit xs[i] b).getD (q + 1) default)) 0 =
          dataMergeL v1 ((List.range (numSlices b N - 1)).map
            (fun q => (dataSplit xs[i] b).getD (q + 1) default)) 0 := rfl
      have hmrg : dataMergeL v1 ((List.range (numSlices b N - 1)).map
            (fun q => (dataSplit xs[i] b).getD (q + 1) default)) 0 = .ok (xs[i]) := by
        rw [← h0, hsplit]
        exact ih xs[i] (List.getElem_mem hil) hwfi hexti
      rw [hmrg, List.getD_eq_getElem _ _ hil]
    have hmex2 := mapExcept_ok_of_forall _ _ _ hcorr2
    simp only [hmex2]
    have hxs : ((List.range xs.length).zip
          (xs.map (fun x => (dataSplit x b).getD 0 default))).map
        (fun p => xs.getD p.1 default) = xs := by
      apply List.ext_getElem
      · simp
      · intro i hi1 hi2
        simp only [List.getElem_map, List.getElem_zip, List.getElem_range]
        exact List.getD_eq_getElem _ _ hi2
    rw [hxs]
  | htup xs ih =>
    intro hwf hext
    rcases wfData_tup_parts hwf with ⟨hne, hwfc⟩
    have hextc : ∀ x ∈ xs, uniformExtent N x = true := uniformExtent_tup_child hext
    have hlens : ∀ x ∈ xs, (dataSplit x b).length = numSlices b N := fun x hx =>
      dataSplit_length_uniform b N hb x (hwfc x hx) (hextc x hx)
    rw [dataSplit_tup]
    have hclsne : xs.map (fun x => dataSplit x b) ≠ [] := by simp [hne]
    have hminlen : minLen (xs.map (fun x => dataSplit x b)) = numSlices b N := by
      apply minLen_const _ _ hclsne
      intro l hl
      rcases List.mem_map.mp hl with ⟨x, hx, hleq⟩
      rw [← hleq]
      exact hlens x hx
    have hcol : ∀ j, (xs.map (fun x => dataSplit x b)).map (fun l => l.getD j default) =
        xs.map (fun x => (dataSplit x b).getD j default) := by
      intro j
      apply List.ext_getElem
      · simp
      · intro i2 hh1 hh2
        simp [List.getElem_map]
    have hzip : pyZip (xs.map (fun x => dataSplit x b)) =
        (List.range (numSlices b N)).map
          (fun j => xs.map (fun x => (dataSplit x b).getD j default)) := by
      simp only [pyZip]
      rw [hminlen]
      exact List.map_congr_left (fun j _ => hcol j)
    have hbatches : (pyZip (xs.map (fun x => dataSplit x b))).map Data.tup =
        Data.tup (xs.map (fun x => (dataSplit x b).getD 0 default)) ::
          (List.range (numSlices b N - 1)).map
            (fun q => Data.tup (xs.map (fun x => (dataSplit x b).getD (q + 1) default))) := by
      rw [hzip]
      apply List.ext_getElem
      · simp only [List.length_map, List.length_range, List.length_cons]
        omega
      · intro i hi1 hi2
        cases i with
        | zero => simp only [List.getElem_map, List.getElem_range, List.getElem_cons_zero]
        | succ q =>
          simp only [List.getElem_map, List.getElem_range, List.getElem_cons_succ]
    rw [hbatches]
    simp only [dataMergeAll]
    rw [dataMergeL_tup]
    have hrest : (List.range (numSlices b N - 1)).map
          (fun q => Data.tup (xs.map (fun x => (dataSplit x b).getD (q + 1) default))) =
        ((List.range (numSlices b N - 1)).map
          (fun q => xs.map (fun x => (dataSplit x b).getD (q + 1) default))).map Data.tup := by
      apply List.ext_getElem
      · simp
      · intro i hh1 hh2
        simp [List.getElem_map]
    simp only [hrest, mapOption_map_section asTupL Data.tup (fun l => rfl)]
    have hfold : ((List.range (numSlices b N - 1)).map
          (fun q => xs.map (fun x => (dataSplit x b).getD (q + 1) default))).foldl
        (fun a l => min a l.length)
        (xs.map (fun x => (dataSplit x b).getD 0 default)).length = xs.length := by
      have h1 : ((List.range (numSlices b N - 1)).map
            (fun q => xs.map (fun x => (dataSplit x b).getD (q + 1) default))).foldl
          (fun a l => min a l.length)
          (xs.map (fun x => (dataSplit x b).getD 0 default)).length =
          minLen ((xs.map (fun x => (dataSplit x b).getD 0 default)) ::
            (List.range (numSlices b N - 1)).map
              (fun q => xs.map (fun x => (dataSplit x b).getD (q + 1) default))) := rfl
      rw [h1]
      apply minLen_const
      · simp
      · intro l hl
        rcases List.mem_cons.mp hl with h | h
        · rw [h]
          simp
        · rcases List.mem_map.mp h with ⟨q, hq, hleq⟩
          rw [← hleq]
          simp
    rw [hfold]
    have hcorr3 : ∀ p ∈ (List.range xs.length).zip
          (xs.map (fun x => (dataSplit x b).getD 0 default)),
        dataMergeL p.2 (((List.range (numSlices b N - 1)).map
            (fun q => xs.map (fun x => (dataSplit x b).getD (q + 1) default))).map
          (fun l => l.getD p.1 default)) 0 = .ok (xs.getD p.1 default) := by
      intro p hp
      obtain ⟨j0, v1⟩ := p
      rcases List.mem_iff_getElem.mp hp with ⟨i, hi, hpeq⟩
      rw [List.getElem_zip] at hpeq
      have hil : i < xs.length := by
        simp only [List.length_zip, List.length_range, List.length_map] at hi
        omega
      have hj0 : i = j0 := by
        have hpr := congrArg Prod.fst hpeq
        simpa using hpr
      have hv1 : v1 = (dataSplit xs[i] b).getD 0 default := by
        have hpr := congrArg Prod.snd hpeq
        simpa using hpr.symm
      subst hj0
      show dataMergeL v1 (((List.range (numSlices b N - 1)).map
            (fun q => xs.map (fun x => (dataSplit x b).getD (q + 1) default))).map
          (fun l => l.getD i default)) 0 = .ok (xs.getD i default)
      have hcols : ((List.range (numSlices b N - 1)).map
            (fun q => xs.map (fun x => (dataSplit x b).getD (q + 1) default))).map
          (fun l => l.getD i default) =
        (List.range (numSlices b N - 1)).map
          (fun q => (dataSplit xs[i] b).getD (q + 1) default) := by
        apply List.ext_getElem
        · simp
        · intro q hq1 hq2
          simp only [List.getElem_map, List.getElem_range]
          rw [List.getD_eq_getElem _ _ (by simpa using hil), List.getElem_map]
      rw [hcols]
      have hwfi := hwfc xs[i] (List.getElem_mem hil)
      have hexti := hextc xs[i] (List.getElem_mem hil)
      have hsplit : v1 :: (List.range (numSlices b N - 1)).map
            (fun q => (dataSplit xs[i] b).getD (q + 1) default) =
          dataSplit xs[i] b := by
        rw [hv1]
        exact splitColumn b N hb hN xs[i] hwfi hexti
      have h0 : dataMergeAll (v1 :: (List.range (numSlices b N - 1)).map
            (fun q => (dataSplit xs[i] b).getD (q + 1) default)) 0 =
          dataMergeL v1 ((List.range (numSlices b N - 1)).map
            (fun q => (dataSplit xs[i] b).getD (q + 1) default)) 0 := rfl
      have hmrg : dataMergeL v1 ((List.range (numSlices b N - 1)).map
            (fun q => (dataSplit xs[i] b).getD (q + 1) default)) 0 = .ok (xs[i]) := by
        rw [← h0, hsplit]
        exact ih xs[i] (List.getElem_mem hil) hwfi hexti
      rw [hmrg, List.getD_eq_getElem _ _ hil]
    have hmex3 := mapExcept_ok_of_forall _ _ _ hcorr3
    simp only [hmex3]
    have hxs : ((List.range xs.length).zip
          (xs.map (fun x => (dataSplit x b).getD 0 default))).map
        (fun p => xs.getD p.1 default) = xs := by
      apply List.ext_getElem
      · simp
      · intro i hi1 hi2
        simp only [List.getElem_map, List.getElem_zip, List.getElem_range]
        exact List.getD_eq_getElem _ _ hi2
    rw [hxs]

/-- C1: split/merge round trip.  For a well-formed tree `t` whose every
leaf has batch-axis extent `N`, and any batch size `b` with
`1 ≤ b ≤ N` (covering `b = N`, `b = 1`, and `b` not dividing `N` so the
final batch is short), merging the batches of `data_split(t, b)` with
`data_merge(..., axis=0)` succeeds and reconstructs `t` exactly — in
particular every leaf of the result equals the corresponding leaf of
`t`. -/
theorem data_split_merge_roundtrip (t : Data) (N b : Nat)
    (hwf : wfData t = true) (hext : uniformExtent N t = true)
    (hb : 1 ≤ b) (hbN : b ≤ N) :
    dataMergeAll (dataSplit t b) 0 = .ok t :=
  splitMergeAux b N hb hbN t hwf hext

/-- Witness for C1: the tree `{"p": leaf(3 rows), "q": [leaf(3 rows),
leaf(3 rows)]}` with extent `N = 3` and batch size `b = 2` (final short
batch) splits into 2 batches whose merge returns the original tree. -/
theorem data_split_merge_roundtrip_witness :
    (wfData (.dict [(.str "p", .leaf [[1], [2], [3]]),
        (.str "q", .seq [.leaf [[4], [5], [6]], .leaf [[7], [8], [9]]])]) = true) ∧
    (uniformExtent 3 (.dict [(.str "p", .leaf [[1], [2], [3]]),
        (.str "q", .seq [.leaf [[4], [5], [6]], .leaf [[7], [8], [9]]])]) = true) ∧
    (dataMergeAll (dataSplit (.dict [(.str "p", .leaf [[1], [2], [3]]),
        (.str "q", .seq [.leaf [[4], [5], [6]], .leaf [[7], [8], [9]]])]) 2) 0 =
      .ok (.dict [(.str "p", .leaf [[1], [2], [3]]),
        (.str "q", .seq [.leaf [[4], [5], [6]], .leaf [[7], [8], [9]]])])) := by
  have hwf : wfData (.dict [(.str "p", .leaf [[1], [2], [3]]),
      (.str "q", .seq [.leaf [[4], [5], [6]], .leaf [[7], [8], [9]]])]) = true := by
    simp [wfData_dict, wfData_seq, wfData_leaf, distinctKeysB]
  have hext : uniformExtent 3 (.dict [(.str "p", .leaf [[1], [2], [3]]),
      (.str "q", .seq [.leaf [[4], [5], [6]], .leaf [[7], [8], [9]]])]) = true := by
    simp [uniformExtent_dict, uniformExtent_seq, uniformExtent_leaf]
  exact ⟨hwf, hext,
    data_split_merge_roundtrip _ 3 2 hwf hext (by omega) (by omega)⟩
